import Mathlib

/-!
Verification of the text-processing core of whisper-dictation.

This file gives a shallow embedding, in Lean 4, of the pure core of the
repository:

* `voice_commands.py` — spoken punctuation and action commands
  (`_delete_last_clause`, `apply_voice_commands`);
* `pipeline.py` — the post-processing pipeline (`PipelineContext`,
  `AutoCapitalizeStep`, `CustomReplacementStep`, `LLMCleanupStep`,
  `Pipeline.process`, `build_pipeline`);
* `profiles.py` — per-application override resolution
  (`get_profile_overrides`);
* `continuous.py` — the streaming silence detector (`SilenceDetector`).

Texts are modelled as `List Char`.  Python `re` operations are embedded as
executable character-list scans: each scan is documented with the regular
expression it implements, and a small executable regex engine (parser plus
backtracking matcher) models the user-supplied patterns of
`CustomReplacementStep` and of profile rules.  Python floats are modelled
as exact rationals; machine-level rounding of float arithmetic is outside
the model.  Network and JSON effects of `LLMCleanupStep` are modelled by an
explicit outcome datatype, and Python exceptions by `Except`.
-/

set_option maxRecDepth 4000

/-! ## Basic character and string utilities -/

/-- Texts are lists of characters. -/
abbrev Str := List Char

/-- Convert a Lean string literal to the `Str` representation. -/
def str (s : String) : Str := s.data

/-- Whitespace characters stripped by Python `str.strip` / matched by `\s`
(ASCII range; the repository's vocabulary and patterns are ASCII). -/
def isWS (c : Char) : Bool :=
  c = ' ' || c = '\t' || c = '\n' || c = '\r' || c = '\x0b' || c = '\x0c'

/-- ASCII lowercase letter, as matched by the regex class `[a-z]`. -/
def isLowerAZ (c : Char) : Bool := 'a' ≤ c && c ≤ 'z'

/-- ASCII uppercase letter. -/
def isUpperAZ (c : Char) : Bool := 'A' ≤ c && c ≤ 'Z'

/-- ASCII decimal digit. -/
def isDigit09 (c : Char) : Bool := '0' ≤ c && c ≤ '9'

/-- Word character, as matched by `\w` (ASCII fragment). -/
def isWordChar (c : Char) : Bool :=
  isLowerAZ c || isUpperAZ c || isDigit09 c || c = '_'

/-- Python `str.lower` on one character (ASCII fragment). -/
def lowerChar (c : Char) : Char :=
  if isUpperAZ c then Char.ofNat (c.toNat + 32) else c

/-- Python `str.upper` on one character (ASCII fragment). -/
def upperChar (c : Char) : Char :=
  if isLowerAZ c then Char.ofNat (c.toNat - 32) else c

/-- Python `str.lower` (ASCII fragment). -/
def lowerStr (s : Str) : Str := s.map lowerChar

/-- Python `str.lstrip()`. -/
def lstrip (s : Str) : Str := s.dropWhile isWS

/-- Python `str.rstrip()`. -/
def rstrip (s : Str) : Str := (s.reverse.dropWhile isWS).reverse

/-- Python `str.strip()`. -/
def strip (s : Str) : Str := lstrip (rstrip s)

/-- Case-insensitive occurrence of `p` at position `i` of `t`
(the semantics of a match of `re.escape(p)` with `re.IGNORECASE`). -/
def occursAtCI (p t : Str) (i : Nat) : Bool :=
  (lowerStr p).isPrefixOf (lowerStr (t.drop i))

/-- Index of the first case-insensitive occurrence of `p` in `t`: the
position reported by `re.search(re.escape(p), t, re.IGNORECASE).start()`. -/
def findCI (p : Str) : Str → Option Nat
  | [] => if (lowerStr p).isPrefixOf [] then some 0 else none
  | c :: t' =>
    if (lowerStr p).isPrefixOf (lowerStr (c :: t')) then some 0
    else (findCI p t').map (· + 1)

/-- Whether `p` occurs case-insensitively in `t`
(`re.search(re.escape(p), t, re.IGNORECASE)` is truthy). -/
def containsCI (p t : Str) : Bool := (findCI p t).isSome

/-! ## voice_commands.py — action commands -/

/-- Characters treated as sentence boundaries by `_delete_last_clause`
(the Python membership test `text[i] in ".!?\n"`). -/
def isClauseBoundary (c : Char) : Bool :=
  c = '.' || c = '!' || c = '?' || c = '\n'

/-- Index of the last clause-boundary character of `t`: the first hit of
the Python loop `for i in range(len(text) - 1, -1, -1)`. -/
def lastBoundaryIdx (t : Str) : Option Nat :=
  match t.reverse.findIdx? (fun c => isClauseBoundary c) with
  | some j => some (t.length - 1 - j)
  | none => none

/-- Embedding of `_delete_last_clause` from `voice_commands.py`:
strip trailing whitespace, then keep everything up to and including the
last sentence boundary plus one space, or delete everything if there is
no boundary. -/
def delete_last_clause (text : Str) : Str :=
  let t := rstrip text
  if t = [] then t
  else
    match lastBoundaryIdx t with
    | some i => t.take (i + 1) ++ [' ']
    | none => []

/-- The keys of `ACTION_COMMANDS`, in dictionary insertion order (all three
map to the single action `_ACTION_DELETE_LAST`). -/
def actionPhrases : List Str :=
  [str "delete that", str "scratch that", str "undo that"]

/-- One iteration of the `while pattern.search(text)` loop of the action
pass of `apply_voice_commands`: locate the earliest case-insensitive
occurrence of the phrase, strip whitespace around it, delete the preceding
clause, and rejoin.  Returns `none` when the phrase does not occur. -/
def actionDeleteStep (p text : Str) : Option Str :=
  match findCI p text with
  | none => none
  | some s =>
    let before := rstrip (text.take s)
    let after := lstrip (text.drop (s + p.length))
    some (delete_last_clause before ++ after)

/-- Fuel-driven unfolding of the `while pattern.search(text)` loop for one
action phrase.  Each successful step strictly shortens the text (proved
below), so fuel `text.length + 1` always reaches the fixpoint. -/
def actionLoopGo (p : Str) : Nat → Str → Str
  | 0, text => text
  | fuel + 1, text =>
    match actionDeleteStep p text with
    | none => text
    | some r => actionLoopGo p fuel r

/-- The `while` loop of the action pass for one phrase, run to completion. -/
def actionLoop (p text : Str) : Str := actionLoopGo p (text.length + 1) text

/-- The action pass of `apply_voice_commands`: the
`for action_phrase, action_type in ACTION_COMMANDS.items()` loop. -/
def actionPass (text : Str) : Str :=
  actionPhrases.foldl (fun t p => actionLoop p t) text

/-! ## voice_commands.py — vocabulary and the literal substitution pass -/

/-- `BUILTIN_COMMANDS` in dictionary insertion order. -/
def builtinCommands : List (Str × Str) :=
  [ (str "period", str "."),
    (str "full stop", str "."),
    (str "comma", str ","),
    (str "question mark", str "?"),
    (str "exclamation mark", str "!"),
    (str "exclamation point", str "!"),
    (str "colon", str ":"),
    (str "semicolon", str ";"),
    (str "dash", str "—"),
    (str "hyphen", str "-"),
    (str "ellipsis", str "..."),
    (str "open quote", str "\""),
    (str "close quote", str "\""),
    (str "open paren", str "("),
    (str "close paren", str ")"),
    (str "new line", str "\n"),
    (str "new paragraph", str "\n\n"),
    (str "tab", str "\t"),
    (str "ampersand", str "&"),
    (str "at sign", str "@"),
    (str "hashtag", str "#"),
    (str "dollar sign", str "$"),
    (str "percent sign", str "%"),
    (str "asterisk", str "*"),
    (str "underscore", str "_"),
    (str "plus sign", str "+"),
    (str "equals sign", str "="),
    (str "slash", str "/"),
    (str "backslash", str "\\") ]

/-- Python dict assignment `commands[k] = v`: overwrite in place if the key
exists (keeping its position), else append. -/
def dictSet (m : List (Str × Str)) (k v : Str) : List (Str × Str) :=
  if m.any (fun kv => kv.1 = k) then
    m.map (fun kv => if kv.1 = k then (k, v) else kv)
  else m ++ [(k, v)]

/-- Python dict lookup `m.get(k, d)`. -/
def dictGet (m : List (Str × Str)) (k d : Str) : Str :=
  match m.find? (fun kv => kv.1 = k) with
  | some kv => kv.2
  | none => d

/-- The command-map merge of `apply_voice_commands`: builtins plus custom
entries, custom keys lowercased, custom overriding builtins on collision.
A custom entry is a `from`/`to` pair. -/
def mergeCommands (custom : List (Str × Str)) : List (Str × Str) :=
  custom.foldl (fun m kv => dictSet m (lowerStr kv.1) kv.2) builtinCommands

/-- Stable insertion of `x` into a list sorted by descending length:
elements of length at least `x.length` keep their earlier positions. -/
def insertByLenDesc (x : Str) : List Str → List Str
  | [] => [x]
  | y :: ys =>
    if x.length ≤ y.length then y :: insertByLenDesc x ys else x :: y :: ys

/-- `sorted(commands.keys(), key=len, reverse=True)`: Python `sorted` is
stable, so equal-length keys keep dictionary insertion order. -/
def sortKeysByLenDesc (keys : List Str) : List Str :=
  keys.foldl (fun acc k => insertByLenDesc k acc) []

/-- Characters of `_ATTACH_LEFT` (`set('.,?!:;')`). -/
def attachLeftStrs : List Str :=
  [str ".", str ",", str "?", str "!", str ":", str ";"]

/-- Embedding of `_replace_match` of `apply_voice_commands`.  `matched` is
`m.group(0).strip().lower()` (always one of the command keys, because the
alternation is built from exactly those keys and matching is
case-insensitive), and `atStart` is `m.start() == 0` (the negation of the
Python guard `m.start() > 0`). -/
def replaceMatch (commands : List (Str × Str)) (matched : Str)
    (atStart : Bool) : Str :=
  let replacement := dictGet commands matched matched
  if replacement ∈ attachLeftStrs then replacement ++ str " "
  else if replacement = str "\n" ∨ replacement = str "\n\n" ∨
      replacement = str "\t" then replacement
  else if (replacement = str "(" ∨ replacement = str "\"") ∧ ¬atStart then
    str " " ++ replacement
  else if replacement = str ")" ∨ replacement = str "\"" then
    replacement ++ str " "
  else str " " ++ replacement ++ str " "

/-- Word-boundary test of `\b` between two neighbouring characters
(`none` at the ends of the text). -/
def isWordO : Option Char → Bool
  | some c => isWordChar c
  | none => false

/-- `\b` holds between `l` and `r` iff exactly one side is a word char. -/
def wordBoundary (l r : Option Char) : Bool := isWordO l != isWordO r

/-- Number of leading whitespace characters (a greedy `\s*`). -/
def countWS (s : Str) : Nat := (s.takeWhile isWS).length

/-- Attempt the combined pattern `\s*\b(?:alt₁|alt₂|…)\b\s*` with the
leading `\s*` bound to exactly `w` characters of `s`: check the word
boundary at offset `w` (`prev` is the character before `s`), try the
alternatives in their sorted order, check the trailing word boundary, and
let the trailing `\s*` match greedily.  Returns the total number of
characters consumed together with the matched key. -/
def tryKeysAt (keys : List Str) (prev : Option Char) (s : Str) (w : Nat) :
    Option (Nat × Str) :=
  let s' := s.drop w
  let prevW : Option Char := if w = 0 then prev else (s.take w).getLast?
  keys.findSome? fun k =>
    if k ≠ [] ∧ occursAtCI k s' 0 ∧ wordBoundary prevW s'.head? ∧
        wordBoundary ((s'.take k.length).getLast?)
          ((s'.drop k.length).head?) then
      some (w + k.length + countWS (s'.drop k.length), k)
    else none

/-- Backtracking over the greedy leading `\s*`: Python's engine tries the
longest whitespace run first, then shorter ones. -/
def tryFromWS (keys : List Str) (prev : Option Char) (s : Str) :
    Nat → Option (Nat × Str)
  | 0 => tryKeysAt keys prev s 0
  | w + 1 =>
    match tryKeysAt keys prev s (w + 1) with
    | some r => some r
    | none => tryFromWS keys prev s w

/-- One match attempt of `combined_pattern` at the current position:
`prev` is the preceding character (`none` at position `0`). -/
def attemptMatch (keys : List Str) (prev : Option Char) (s : Str) :
    Option (Nat × Str) :=
  tryFromWS keys prev s (countWS s)

/-- The `finditer` replacement loop of `apply_voice_commands`: scan left to
right; on a match, emit `_replace_match` and resume after the match; else
copy one character.  `prev` is the character preceding the scan position,
so `prev = none` exactly when `m.start() == 0`.  Fuel bounds the recursion;
`s.length + 1` suffices because every step consumes at least one
character. -/
def literalGo (keys : List Str) (commands : List (Str × Str)) :
    Nat → Option Char → Str → Str
  | 0, _, s => s
  | _ + 1, _, [] => []
  | fuel + 1, prev, c :: cs =>
    match attemptMatch keys prev (c :: cs) with
    | some (len, k) =>
      if len = 0 then c :: literalGo keys commands fuel (some c) cs
      else
        replaceMatch commands k prev.isNone ++
          literalGo keys commands fuel (((c :: cs).take len).getLast?)
            ((c :: cs).drop len)
    | none => c :: literalGo keys commands fuel (some c) cs

/-- The literal substitution pass: one left-to-right scan over the text
with the word-boundary-anchored combined pattern. -/
def literalPass (keys : List Str) (commands : List (Str × Str))
    (text : Str) : Str :=
  literalGo keys commands (text.length + 1) none text

/-! ## voice_commands.py — normalization pass

Each cleanup is one `re.sub`, embedded as a character scan.  A scan emits
the replacement and resumes after the matched region, exactly as `re.sub`
does; the equivalences are noted per function. -/

/-- Space or tab, the class `[ \t]`. -/
def isSpTab (c : Char) : Bool := c = ' ' || c = '\t'

/-- State machine for `re.sub(r'[ \t]{2,}', ' ', text)`.  The flag records
being inside a run of two or more spaces/tabs whose single replacement
space has already been emitted. -/
def collapseGo : Bool → Str → Str
  | _, [] => []
  | true, c :: cs =>
    if isSpTab c then collapseGo true cs else c :: collapseGo false cs
  | false, c :: cs =>
    if isSpTab c then
      match cs.head? with
      | some d =>
        if isSpTab d then ' ' :: collapseGo true cs
        else c :: collapseGo false cs
      | none => c :: collapseGo false cs
    else c :: collapseGo false cs

/-- `re.sub(r'[ \t]{2,}', ' ', text)`: collapse every maximal run of two or
more spaces/tabs into a single space (a lone space or tab is kept). -/
def collapseSpaceRuns (s : Str) : Str := collapseGo false s

/-- Punctuation class `[.,?!:;]` of the cleanup
`re.sub(r' +([.,?!:;])', r'\1', text)`. -/
def isCleanupPunct (c : Char) : Bool :=
  c = '.' || c = ',' || c = '?' || c = '!' || c = ':' || c = ';'

/-- Right-to-left state machine shared by the two space-deleting cleanups:
on the reversed text, a space is dropped exactly when every character
between it and some trigger character (to its right in the original text)
is a space — the condition under which `re.sub` deletes it as part of a
space run directly preceding the trigger. -/
def dropSpacesBeforeGo (trigger : Char → Bool) : Bool → Str → Str
  | _, [] => []
  | active, c :: cs =>
    if trigger c then c :: dropSpacesBeforeGo trigger true cs
    else if c = ' ' ∧ active then dropSpacesBeforeGo trigger true cs
    else c :: dropSpacesBeforeGo trigger false cs

/-- `re.sub(r' +([.,?!:;])', r'\1', text)`: delete every run of spaces that
directly precedes sentence punctuation. -/
def dropSpacesBeforePunct (s : Str) : Str :=
  (dropSpacesBeforeGo isCleanupPunct false s.reverse).reverse

/-- `re.sub(r' +\n', '\n', text)`: delete every run of spaces directly
preceding a newline. -/
def dropSpacesBeforeNL (s : Str) : Str :=
  (dropSpacesBeforeGo (fun c => c = '\n') false s.reverse).reverse

/-- `re.sub(r'(\() ', r'\1', text)`: delete the single space directly after
an opening parenthesis (the scan resumes after the deleted space). -/
def dropSpaceAfterOpenParen : Str → Str
  | [] => []
  | '(' :: ' ' :: cs => '(' :: dropSpaceAfterOpenParen cs
  | c :: cs => c :: dropSpaceAfterOpenParen cs

/-- `re.sub(r' (\))', r'\1', text)`: delete the single space directly
before a closing parenthesis (the scan resumes after the parenthesis). -/
def dropSpaceBeforeCloseParen : Str → Str
  | [] => []
  | ' ' :: ')' :: cs => ')' :: dropSpaceBeforeCloseParen cs
  | c :: cs => c :: dropSpaceBeforeCloseParen cs

/-- Embedding of `apply_voice_commands` from `voice_commands.py`: early
return on empty text, vocabulary merge, action pass, literal substitution
with the longest-first word-boundary alternation, the five cleanups and a
final strip. -/
def apply_voice_commands (text : Str) (custom : List (Str × Str)) : Str :=
  if text = [] then text
  else
    let commands := mergeCommands custom
    let t1 := actionPass text
    let keys := sortKeysByLenDesc (commands.map (fun kv => kv.1))
    let t2 := literalPass keys commands t1
    strip (dropSpaceBeforeCloseParen (dropSpaceAfterOpenParen
      (dropSpacesBeforeNL (dropSpacesBeforePunct (collapseSpaceRuns t2)))))

/-! ## pipeline.py — context and AutoCapitalizeStep -/

/-- Embedding of the dataclass `PipelineContext`.  `duration` is a Python
float, modelled as an exact rational. -/
structure PipelineContext where
  text : Str
  original_text : Str
  model_used : Str
  duration : ℚ
  window_class : Str
  deriving Repr, DecidableEq

/-- Construction of a `PipelineContext` from keyword arguments with
`original_text` left at its default `""`: `__post_init__` copies `text`
into `original_text`. -/
def PipelineContext.make (text : Str) (model_used : Str) (duration : ℚ)
    (window_class : Str) : PipelineContext :=
  { text := text, original_text := text, model_used := model_used,
    duration := duration, window_class := window_class }

/-- Sentence-ender class `[.!?]` of `AutoCapitalizeStep` (note: unlike
`_delete_last_clause`, the newline is not in this class). -/
def isSentenceEnder (c : Char) : Bool := c = '.' || c = '!' || c = '?'

/-- Scanner state for `re.sub(r'([.!?]\s+)([a-z])', …)`: `0` = no pending
sentence ender, `1` = sentence ender seen, `2` = sentence ender followed by
at least one whitespace character (all characters since it whitespace). -/
def capTermUpd (st : Nat) (c : Char) : Nat :=
  if isSentenceEnder c then 1
  else if isWS c then (if st = 0 then 0 else 2)
  else 0

/-- Whether `re.sub(r'([.!?]\s+)([a-z])', …)` uppercases the character `c`
in state `st`. -/
def capTermHit (st : Nat) (c : Char) : Bool := st = 2 && isLowerAZ c

/-- Embedding of `re.sub(r'([.!?]\s+)([a-z])', lambda m: m.group(1) +
m.group(2).upper(), text)`: a match is a sentence ender, a maximal nonempty
whitespace run, and a following lowercase letter, which is uppercased.
Matches are disjoint and determined by the left context alone, so the
substitution is a left-to-right scan. -/
def capTermGo (st : Nat) : Str → Str
  | [] => []
  | c :: cs =>
    (if capTermHit st c then upperChar c else c) :: capTermGo (capTermUpd st c) cs

/-- Scanner state for `re.sub(r'(\n\s*)([a-z])', …)`: `true` iff some
newline is separated from the current position only by whitespace. -/
def capNLUpd (st : Bool) (c : Char) : Bool :=
  if c = '\n' then true else if isWS c then st else false

/-- Whether `re.sub(r'(\n\s*)([a-z])', …)` uppercases `c` in state `st`. -/
def capNLHit (st : Bool) (c : Char) : Bool := st && isLowerAZ c

/-- Embedding of `re.sub(r'(\n\s*)([a-z])', lambda m: m.group(1) +
m.group(2).upper(), text)`. -/
def capNLGo (st : Bool) : Str → Str
  | [] => []
  | c :: cs =>
    (if capNLHit st c then upperChar c else c) :: capNLGo (capNLUpd st c) cs

/-- Embedding of `AutoCapitalizeStep.process` on the text: uppercase the
first character, then capitalize after sentence enders, then after
newlines.  Empty text returns unchanged. -/
def autoCapitalize (t : Str) : Str :=
  match t with
  | [] => []
  | c :: cs => capNLGo false (capTermGo 0 (upperChar c :: cs))

/-! ## continuous.py — SilenceDetector -/

/-- State of `SilenceDetector`.  `threshold` and the configured duration
are Python floats, modelled as exact rationals; `required_samples` is the
value of `int(duration * sample_rate)`. -/
structure SilenceDetector where
  threshold : ℚ
  silent_samples : Nat
  required_samples : Nat
  deriving Repr, DecidableEq

/-- `SilenceDetector.__init__`: for the nonnegative durations the
configuration supplies, Python `int()` truncation equals the floor. -/
def SilenceDetector.init (threshold duration : ℚ) (sample_rate : Nat) :
    SilenceDetector :=
  { threshold := threshold, silent_samples := 0,
    required_samples := (⌊duration * (sample_rate : ℚ)⌋).toNat }

/-- Decode raw PCM bytes as 16-bit signed little-endian values:
`struct.unpack(f'<{n}h', samples[:n * 2])` with `n = len(samples) // 2`
(a trailing odd byte is discarded). -/
def decodePCM16 : List Nat → List ℤ
  | b0 :: b1 :: rest =>
    (let v : ℤ := b0 + 256 * b1
     if 32768 ≤ v then v - 65536 else v) :: decodePCM16 rest
  | _ => []

/-- The silence test `rms < self.threshold` with
`rms = (sum(v * v for v in values) / n_samples) ** 0.5 / 32768.0`, stated
without the square root: since the root is nonnegative, `rms < t` iff
`t` is positive and `rms² < t²`.  Exact rational arithmetic models the
real-valued computation (float rounding is outside the model). -/
def chunkIsSilent (threshold : ℚ) (values : List ℤ) : Bool :=
  let n : ℚ := values.length
  let sumSq : ℚ := ((values.map (fun v => v * v)).sum : ℤ)
  decide (0 < threshold ∧
    sumSq / n < (threshold * 32768) * (threshold * 32768))

/-- Embedding of `SilenceDetector.feed`: returns the updated state and the
boolean result. -/
def SilenceDetector.feed (d : SilenceDetector) (samples : List Nat) :
    SilenceDetector × Bool :=
  if samples.length < 2 then (d, false)
  else
    let values := decodePCM16 samples
    let d' :=
      if chunkIsSilent d.threshold values then
        { d with silent_samples := d.silent_samples + values.length }
      else { d with silent_samples := 0 }
    (d', decide (d'.required_samples ≤ d'.silent_samples))

/-- `SilenceDetector.reset`. -/
def SilenceDetector.resetCounter (d : SilenceDetector) : SilenceDetector :=
  { d with silent_samples := 0 }

/-- Feed a sequence of chunks, collecting the boolean results. -/
def feedAll (d : SilenceDetector) : List (List Nat) →
    SilenceDetector × List Bool
  | [] => (d, [])
  | chunk :: rest =>
    ((feedAll (d.feed chunk).1 rest).1,
      (d.feed chunk).2 :: (feedAll (d.feed chunk).1 rest).2)

/-! ## A small regex engine

User-supplied patterns (profile rules, custom replacement rules) are
arbitrary strings compiled with Python `re`.  This model implements an
executable core of that engine: literals, `.`, character classes,
grouping, alternation and the greedy/lazy quantifiers `*`, `+`, `?`, with
Python's preference order (leftmost match, alternatives tried left to
right, greedy quantifiers consume first).  `compileRegex` returns `none`
exactly on the patterns the model deems syntactically invalid — these are
the patterns on which `re.compile` raises `re.error` (anchors, counted
repetitions `{m,n}`, backreferences and inline flags are outside the
model and also reported as invalid). -/

/-- Regular-expression syntax trees.  A character class is a negation flag
plus a list of inclusive ranges (a single character is a one-point
range). -/
inductive RegEx where
  | eps
  | chr (c : Char)
  | anyChar
  | cls (neg : Bool) (items : List (Char × Char))
  | seq (a b : RegEx)
  | alt (a b : RegEx)
  | star (lazy : Bool) (a : RegEx)
  deriving Repr, DecidableEq

/-- Membership of `c` in a character class. -/
def clsMem (items : List (Char × Char)) (c : Char) : Bool :=
  items.any (fun r => r.1 ≤ c && c ≤ r.2)

/-- The predefined classes `\d`, `\w`, `\s` (ASCII fragment). -/
def escClass (c : Char) : Option (Bool × List (Char × Char)) :=
  if c = 'd' then some (false, [('0', '9')])
  else if c = 'D' then some (true, [('0', '9')])
  else if c = 'w' then
    some (false, [('a', 'z'), ('A', 'Z'), ('0', '9'), ('_', '_')])
  else if c = 'W' then
    some (true, [('a', 'z'), ('A', 'Z'), ('0', '9'), ('_', '_')])
  else if c = 's' then
    some (false, [(' ', ' '), ('\t', '\t'), ('\n', '\n'), ('\r', '\r'),
      ('\x0b', '\x0b'), ('\x0c', '\x0c')])
  else if c = 'S' then
    some (true, [(' ', ' '), ('\t', '\t'), ('\n', '\n'), ('\r', '\r'),
      ('\x0b', '\x0b'), ('\x0c', '\x0c')])
  else none

/-- Parse the items of a character class, after the opening bracket and
optional `^`; the closing bracket is consumed.  Fails on an unterminated
class. -/
def parseClsItems : Nat → Str → Option (List (Char × Char) × Str)
  | 0, _ => none
  | _ + 1, [] => none
  | fuel + 1, c :: rest =>
    if c = ']' then some ([], rest)
    else
      let item : Option ((Char × Char) × Str) :=
        match c, rest with
        | '\\', e :: rest' => some ((e, e), rest')
        | _, '-' :: d :: rest' =>
          if d = ']' then none else some ((c, d), rest')
        | _, _ => some ((c, c), rest)
      match item with
      | some (r, rest') =>
        match parseClsItems fuel rest' with
        | some (rs, rest'') => some (r :: rs, rest'')
        | none =>
          match c, rest with
          | _, '-' :: d :: _ =>
            if d = ']' then
              -- `c-]`: the dash is a literal, class ends after it
              match rest with
              | _ :: _ :: rest'' => some ([(c, c), ('-', '-')], rest'')
              | _ => none
            else none
          | _, _ => none
      | none => none

/-- Parse one quantifiable atom.  Returns `none` on invalid syntax or at
`|`, `)` or end of pattern (no atom present). -/
def parseAtom (parseA : Str → Option (RegEx × Str)) : Str →
    Option (RegEx × Str)
  | [] => none
  | c :: rest =>
    if c = '(' then
      match rest with
      | '?' :: ':' :: rest' =>
        match parseA rest' with
        | some (r, ')' :: rest'') => some (r, rest'')
        | _ => none
      | '?' :: _ => none
      | _ =>
        match parseA rest with
        | some (r, ')' :: rest') => some (r, rest')
        | _ => none
    else if c = '[' then
      match rest with
      | '^' :: rest' =>
        (parseClsItems (rest'.length + 1) rest').map
          (fun x => (RegEx.cls true x.1, x.2))
      | _ =>
        (parseClsItems (rest.length + 1) rest).map
          (fun x => (RegEx.cls false x.1, x.2))
    else if c = '\\' then
      match rest with
      | [] => none
      | e :: rest' =>
        match escClass e with
        | some (neg, items) => some (RegEx.cls neg items, rest')
        | none =>
          if isLowerAZ e || isUpperAZ e || isDigit09 e then none
          else some (RegEx.chr e, rest')
    else if c = '.' then some (RegEx.anyChar, rest)
    else if c = '*' ∨ c = '+' ∨ c = '?' ∨ c = '|' ∨ c = ')' ∨ c = '^' ∨
        c = '$' then none
    else some (RegEx.chr c, rest)

/-- Apply an optional quantifier (with optional lazy `?` suffix) to an
atom; a second directly following quantifier is a `multiple repeat`
error, detected by the caller failing on the leftover character. -/
def applyQuant (r : RegEx) : Str → (RegEx × Str)
  | '*' :: '?' :: rest => (RegEx.star true r, rest)
  | '*' :: rest => (RegEx.star false r, rest)
  | '+' :: '?' :: rest => (RegEx.seq r (RegEx.star true r), rest)
  | '+' :: rest => (RegEx.seq r (RegEx.star false r), rest)
  | '?' :: '?' :: rest => (RegEx.alt RegEx.eps r, rest)
  | '?' :: rest => (RegEx.alt r RegEx.eps, rest)
  | rest => (r, rest)

/-- Parse a concatenation of quantified atoms (possibly empty). -/
def parseSeqFuel (parseA : Str → Option (RegEx × Str)) :
    Nat → Str → Option (RegEx × Str)
  | 0, _ => none
  | fuel + 1, s =>
    match parseAtom parseA s with
    | none => some (RegEx.eps, s)
    | some (r, rest) =>
      let (r', rest') := applyQuant r rest
      match rest' with
      | '*' :: _ => none
      | '+' :: _ => none
      | '?' :: _ => none
      | _ =>
        match parseSeqFuel parseA fuel rest' with
        | some (r'', rest'') => some (RegEx.seq r' r'', rest'')
        | none => none

/-- Parse an alternation `seq ('|' seq)*`. -/
def parseAltFuel : Nat → Str → Option (RegEx × Str)
  | 0, _ => none
  | fuel + 1, s =>
    match parseSeqFuel (parseAltFuel fuel) (s.length + 1) s with
    | none => none
    | some (r, rest) =>
      match rest with
      | '|' :: rest' =>
        match parseAltFuel fuel rest' with
        | some (r', rest'') => some (RegEx.alt r r', rest'')
        | none => none
      | _ => some (r, rest)

/-- Embedding of `re.compile`: `none` models `re.error`.  A successful
parse must consume the whole pattern (a leftover `)` is an unbalanced
parenthesis, a leftover quantifier a multiple repeat). -/
def compileRegex (p : Str) : Option RegEx :=
  match parseAltFuel (p.length + 1) p with
  | some (r, []) => some r
  | _ => none

/-- Backtracking matcher in continuation style, mirroring Python's
preference order: the continuation receives the rest of the input, and the
first success in preference order wins.  Greedy stars try consuming
before the continuation, lazy stars the other way round.  Fuel bounds the
depth; it is exhausted only by repeated empty star iterations, which
Python cuts off by its no-progress rule. -/
def reMatchC : Nat → RegEx → Str → (Str → Option Str) → Option Str
  | 0, _, _, _ => none
  | _ + 1, RegEx.eps, s, k => k s
  | _ + 1, RegEx.chr c, s, k =>
    match s with
    | [] => none
    | x :: xs => if x = c then k xs else none
  | _ + 1, RegEx.anyChar, s, k =>
    match s with
    | [] => none
    | x :: xs => if x = '\n' then none else k xs
  | _ + 1, RegEx.cls neg items, s, k =>
    match s with
    | [] => none
    | x :: xs => if clsMem items x != neg then k xs else none
  | fuel + 1, RegEx.seq a b, s, k =>
    reMatchC fuel a s (fun s' => reMatchC fuel b s' k)
  | fuel + 1, RegEx.alt a b, s, k =>
    match reMatchC fuel a s k with
    | some r => some r
    | none => reMatchC fuel b s k
  | fuel + 1, RegEx.star lazy a, s, k =>
    if lazy then
      match k s with
      | some r => some r
      | none =>
        reMatchC fuel a s (fun s' => reMatchC fuel (RegEx.star lazy a) s' k)
    else
      match reMatchC fuel a s
          (fun s' => reMatchC fuel (RegEx.star lazy a) s' k) with
      | some r => some r
      | none => k s

/-- Size of a regex tree, used to provision matcher fuel. -/
def regexSize : RegEx → Nat
  | RegEx.eps | RegEx.chr _ | RegEx.anyChar | RegEx.cls _ _ => 1
  | RegEx.seq a b | RegEx.alt a b => regexSize a + regexSize b + 1
  | RegEx.star _ a => regexSize a + 1

/-- Fuel that lets every match attempt on `s` run to completion. -/
def matchFuel (r : RegEx) (s : Str) : Nat :=
  (regexSize r + 1) * (s.length + 2) + 1

/-- Leftmost match of `r` at the head of `s`: returns the remaining
suffix of the preferred match, if any. -/
def reMatchHere (r : RegEx) (s : Str) : Option Str :=
  reMatchC (matchFuel r s) r s some

/-- Embedding of `re.search(r, s)` as a boolean: try a match at every
start position, left to right. -/
def reSearchAux (r : RegEx) : Str → Bool
  | [] => (reMatchHere r []).isSome
  | c :: cs => (reMatchHere r (c :: cs)).isSome || reSearchAux r cs

/-- Lower the literal characters of a compiled pattern; together with
lowering the subject text this models `re.IGNORECASE` (multi-character
class ranges are left untouched — an approximation noted in the header). -/
def ciRE : RegEx → RegEx
  | RegEx.eps => RegEx.eps
  | RegEx.chr c => RegEx.chr (lowerChar c)
  | RegEx.anyChar => RegEx.anyChar
  | RegEx.cls neg items =>
    RegEx.cls neg (items.map
      (fun r => if r.1 = r.2 then (lowerChar r.1, lowerChar r.2) else r))
  | RegEx.seq a b => RegEx.seq (ciRE a) (ciRE b)
  | RegEx.alt a b => RegEx.alt (ciRE a) (ciRE b)
  | RegEx.star lazy a => RegEx.star lazy (ciRE a)

/-- Embedding of `re.sub(r, repl, s)`: replace every non-overlapping
leftmost match by `repl` (inserted literally: backslash template escapes
are outside the model), advancing one character past an empty match. -/
def reSubGo (r : RegEx) (repl : Str) : Nat → Str → Str
  | 0, s => s
  | fuel + 1, s =>
    match reMatchHere r s with
    | some rest =>
      if rest.length = s.length then
        match s with
        | [] => repl
        | c :: cs => repl ++ c :: reSubGo r repl fuel cs
      else repl ++ reSubGo r repl fuel rest
    | none =>
      match s with
      | [] => []
      | c :: cs => c :: reSubGo r repl fuel cs

/-- `re.sub(r, repl, s)`. -/
def reSub (r : RegEx) (repl s : Str) : Str := reSubGo r repl (s.length + 1) s

/-! ## config.py — the configuration surface used by this core -/

/-- `LLMConfig` from `config.py`. -/
structure LLMConfig where
  enabled : Bool
  endpoint : Str
  model : Str
  prompt : Str
  deriving Repr, DecidableEq

/-- One custom replacement rule: an entry of
`pipeline.custom_replacements` (`{"pattern": …, "replacement": …}`). -/
structure ReplacementRule where
  pattern : Str
  replacement : Str
  deriving Repr, DecidableEq

/-- `PipelineConfig` from `config.py`. -/
structure PipelineConfig where
  auto_capitalize : Bool
  voice_commands : Bool
  custom_replacements : List ReplacementRule
  llm : LLMConfig
  deriving Repr, DecidableEq

/-- `VoiceCommandsConfig` from `config.py`; `custom` is the list of
`from`/`to` pairs. -/
structure VoiceCommandsConfig where
  enabled : Bool
  custom : List (Str × Str)
  deriving Repr, DecidableEq

/-- `ProfileRule` from `config.py`. -/
structure ProfileRule where
  window_class : Str
  typing_method : Option Str
  auto_capitalize : Option Bool
  deriving Repr, DecidableEq

/-- `ProfilesConfig` from `config.py`. -/
structure ProfilesConfig where
  enabled : Bool
  rules : List ProfileRule
  deriving Repr, DecidableEq

/-- The fields of `Config` consumed by the pipeline/profile core. -/
structure Config where
  pipeline : PipelineConfig
  voice_commands : VoiceCommandsConfig
  profiles : ProfilesConfig
  deriving Repr, DecidableEq

/-! ## profiles.py — get_profile_overrides -/

/-- The override map returned by `get_profile_overrides` and consumed by
`build_pipeline`/the dictation loops.  The Python value is a string-keyed
dict; the consumers read exactly the keys `typing_method`,
`auto_capitalize` and `voice_commands` (the last via
`overrides.get("voice_commands", …)` in `build_pipeline`), so the dict is
modelled as a record of optional fields, `none` meaning "key absent". -/
structure Overrides where
  typing_method : Option Str := none
  auto_capitalize : Option Bool := none
  voice_commands : Option Bool := none
  deriving Repr, DecidableEq

/-- The `try: re.search(pattern, window_class, re.IGNORECASE) except
re.error` body of `get_profile_overrides`: `none` models a raised
`re.error`. -/
def profileRuleSearch (pattern window_class : Str) : Option Bool :=
  match compileRegex pattern with
  | none => none
  | some r => some (reSearchAux (ciRE r) (lowerStr window_class))

/-- The `for rule in config.profiles.rules` loop of
`get_profile_overrides`: skip empty patterns (`if not pattern: continue`),
skip invalid patterns (`except re.error: continue`), and return the
non-null override fields of the first matching rule. -/
def matchProfileRules : List ProfileRule → Str → Overrides
  | [], _ => {}
  | rule :: rest, wc =>
    if rule.window_class = [] then matchProfileRules rest wc
    else
      match profileRuleSearch rule.window_class wc with
      | none => matchProfileRules rest wc
      | some false => matchProfileRules rest wc
      | some true =>
        { typing_method := rule.typing_method,
          auto_capitalize := rule.auto_capitalize }

/-- Embedding of `get_profile_overrides` from `profiles.py`. -/
def get_profile_overrides (cfg : Config) (window_class : Str) : Overrides :=
  if ¬cfg.profiles.enabled ∨ window_class = [] then {}
  else matchProfileRules cfg.profiles.rules window_class

/-! ## pipeline.py — CustomReplacementStep -/

/-- One iteration of the rule loop of `CustomReplacementStep.process`:
empty patterns are skipped by `if pattern:`, invalid ones by
`except re.error: continue`. -/
def applyReplacementRule (t : Str) (rule : ReplacementRule) : Str :=
  if rule.pattern = [] then t
  else
    match compileRegex rule.pattern with
    | none => t
    | some r => reSub r rule.replacement t

/-- Embedding of `CustomReplacementStep.process` on the text. -/
def customReplace (rules : List ReplacementRule) (t : Str) : Str :=
  rules.foldl applyReplacementRule t

/-! ## pipeline.py — LLMCleanupStep -/

/-- JSON values, for the decoded response of the Ollama endpoint. -/
inductive JSONValue where
  | null
  | jbool (b : Bool)
  | jnum (q : ℚ)
  | jstr (s : Str)
  | jarr (elems : List JSONValue)
  | jobj (fields : List (Str × JSONValue))

/-- Outcome of the single `urllib.request.urlopen` call of
`LLMCleanupStep.process`.  A `success` carries the result of `json.loads`
on the response body (`Except.error` models `json.JSONDecodeError`); the
error constructors are the exception classes named in the `except`
clause. -/
inductive HTTPOutcome where
  | success (body : Except Unit JSONValue)
  | urlError
  | timeoutError
  | osError

/-- A Python exception escaping a step. -/
inductive PyError where
  | attributeError
  deriving Repr, DecidableEq

/-- Lookup in a JSON object, as `dict.get(key, default)`. -/
def jsonGet (fields : List (Str × JSONValue)) (key : Str)
    (dflt : JSONValue) : JSONValue :=
  match fields.find? (fun kv => kv.1 = key) with
  | some kv => kv.2
  | none => dflt

/-- Embedding of `LLMCleanupStep.process`.  The `except` clause catches
`URLError`, `TimeoutError`, `JSONDecodeError` and `OSError` only; the
attribute errors raised by `result.get` on a non-dict JSON document and by
`.strip()` on a non-string field value are not caught and escape as
`Except.error`. -/
def llmCleanupProcess (model : Str) (outcome : HTTPOutcome)
    (ctx : PipelineContext) : Except PyError PipelineContext :=
  if model = [] then Except.ok ctx
  else
    match outcome with
    | HTTPOutcome.urlError => Except.ok ctx
    | HTTPOutcome.timeoutError => Except.ok ctx
    | HTTPOutcome.osError => Except.ok ctx
    | HTTPOutcome.success (Except.error _) => Except.ok ctx
    | HTTPOutcome.success (Except.ok doc) =>
      match doc with
      | JSONValue.jobj fields =>
        match jsonGet fields (str "response") (JSONValue.jstr []) with
        | JSONValue.jstr s =>
          let cleaned := strip s
          if cleaned ≠ [] then Except.ok { ctx with text := cleaned }
          else Except.ok ctx
        | _ => Except.error PyError.attributeError
      | _ => Except.error PyError.attributeError

/-! ## pipeline.py — Pipeline and build_pipeline -/

/-- The four `PipelineStep` subclasses, with their constructor state. -/
inductive PStep where
  | voiceCommand (custom : List (Str × Str))
  | autoCap
  | customReplacement (replacements : List ReplacementRule)
  | llmCleanup (endpoint model prompt : Str)
  deriving Repr, DecidableEq

/-- `process` of the respective step.  The LLM step consults `outcome`,
the result of its network call. -/
def stepProcess (step : PStep) (outcome : HTTPOutcome)
    (ctx : PipelineContext) : Except PyError PipelineContext :=
  match step with
  | PStep.voiceCommand custom =>
    Except.ok { ctx with text := apply_voice_commands ctx.text custom }
  | PStep.autoCap => Except.ok { ctx with text := autoCapitalize ctx.text }
  | PStep.customReplacement rules =>
    Except.ok { ctx with text := customReplace rules ctx.text }
  | PStep.llmCleanup _ model _ => llmCleanupProcess model outcome ctx

/-- Embedding of `Pipeline.process`: run all steps in order; an uncaught
exception aborts the remaining steps.  `outcome` feeds any LLM step (the
built pipelines contain at most one). -/
def pipelineProcess (steps : List PStep) (outcome : HTTPOutcome)
    (ctx : PipelineContext) : Except PyError PipelineContext :=
  match steps with
  | [] => Except.ok ctx
  | step :: rest =>
    match stepProcess step outcome ctx with
    | Except.ok ctx' => pipelineProcess rest outcome ctx'
    | Except.error e => Except.error e

/-- Embedding of `build_pipeline` from `pipeline.py`. -/
def build_pipeline (cfg : Config) (overrides : Overrides) : List PStep :=
  let voice_enabled := overrides.voice_commands.getD
    (cfg.pipeline.voice_commands && cfg.voice_commands.enabled)
  let auto_cap := overrides.auto_capitalize.getD cfg.pipeline.auto_capitalize
  (if voice_enabled then [PStep.voiceCommand cfg.voice_commands.custom]
   else []) ++
  (if auto_cap then [PStep.autoCap] else []) ++
  (if cfg.pipeline.custom_replacements ≠ [] then
    [PStep.customReplacement cfg.pipeline.custom_replacements] else []) ++
  (if cfg.pipeline.llm.enabled then
    [PStep.llmCleanup cfg.pipeline.llm.endpoint cfg.pipeline.llm.model
      cfg.pipeline.llm.prompt] else [])

/-! ## Claim-side specification functions

The following definitions transcribe claim sentences (not the source);
they exist to be compared with the source embeddings above.  Each doc
comment quotes the wording it follows. -/

/-- Claim C1 wording: "repeatedly locates the earliest case-insensitive
occurrence of any action phrase".  Returns the start and end of that
earliest occurrence. -/
def claimEarliestAction (text : Str) : Option (Nat × Nat) :=
  (actionPhrases.filterMap
    (fun p => (findCI p text).map (fun s => (s, s + p.length)))).foldl
    (fun acc x =>
      match acc with
      | none => some x
      | some y => if x.1 < y.1 then some x else some y) none

/-- Claim C1 wording: the preceding clause starts "just after the previous
sentence-terminal character (., !, ?, or newline), or from the start of
the text if none exists". -/
def claimClauseStart (pre : Str) : Nat :=
  match lastBoundaryIdx pre with
  | some j => j + 1
  | none => 0

/-- Claim C1 wording: "for each occurrence, deletes the phrase together
with the preceding clause". -/
def claimActionStep (text : Str) : Option Str :=
  (claimEarliestAction text).map
    (fun se => text.take (claimClauseStart (text.take se.1)) ++
      text.drop se.2)

/-- Claim C1 wording: "repeating until no action phrase remains" (each
step removes at least the phrase, so fuel `text.length + 1` reaches the
fixpoint). -/
def claimActionGo : Nat → Str → Str
  | 0, text => text
  | fuel + 1, text =>
    match claimActionStep text with
    | none => text
    | some r => claimActionGo fuel r

/-- The action pass as described by claim C1. -/
def claimActionPass (text : Str) : Str :=
  claimActionGo (text.length + 1) text

/-- Amended C1: the preceding clause is determined only after discarding
the whitespace (including newlines) just before the phrase: the clause is
the longest boundary-free suffix of the whitespace-stripped prefix; the
kept part retains the boundary character followed by a single space, and
is empty when no boundary exists. -/
def amendedClause (pre : Str) : Str :=
  let y := rstrip pre
  let clause := (y.reverse.takeWhile (fun c => !isClauseBoundary c)).reverse
  let kept := y.take (y.length - clause.length)
  if kept = [] then [] else kept ++ [' ']

/-- Amended C1: one deletion of the phrase's earliest occurrence together
with its preceding clause; whitespace after the phrase is discarded. -/
def amendedActionStep (p text : Str) : Option Str :=
  (findCI p text).map
    (fun s => amendedClause (text.take s) ++ lstrip (text.drop (s + p.length)))

/-- Amended C1: repeat one phrase's deletion until the phrase no longer
occurs. -/
def amendedActionGo (p : Str) : Nat → Str → Str
  | 0, text => text
  | fuel + 1, text =>
    match amendedActionStep p text with
    | none => text
    | some r => amendedActionGo p fuel r

/-- Amended C1: the phrases are processed one at a time in the fixed
order "delete that", "scratch that", "undo that", each exhaustively. -/
def amendedActionPass (text : Str) : Str :=
  actionPhrases.foldl
    (fun t p => amendedActionGo p (t.length + 1) t) text

/-- Claim C2 wording, per replacement class: "punctuation-attach-left
(. , ? ! : ;) as replacement plus one trailing space and no leading
space; whitespace-control (newline, blank-line, tab) verbatim;
bracket-open (( or opening quote) with a single leading space unless at
text start and no trailing space; bracket-close ()) or closing quote) as
the replacement followed by one trailing space; all other replacements
space-separated on both sides".  `key` resolves the open/close ambiguity
of the shared quote glyph. -/
def claimEmit (key replacement : Str) (atStart : Bool) : Str :=
  if replacement ∈ attachLeftStrs then replacement ++ str " "
  else if replacement = str "\n" ∨ replacement = str "\n\n" ∨
      replacement = str "\t" then replacement
  else if replacement = str "(" ∨ key = str "open quote" then
    (if atStart then replacement else str " " ++ replacement)
  else if replacement = str ")" ∨ key = str "close quote" then
    replacement ++ str " "
  else str " " ++ replacement ++ str " "

/-- Replacement classes of the amended C2 emission rules. -/
inductive ReplClass where
  | attachLeft
  | wsControl
  | openBracketMid
  | closeLike
  | literalClass
  deriving Repr, DecidableEq

/-- Amended C2 classification: the class is read off the replacement text
alone; a quote behaves as bracket-open only away from the text start, and
otherwise (like a closing bracket) takes a trailing space. -/
def amendedClassify (replacement : Str) (atStart : Bool) : ReplClass :=
  if replacement ∈ attachLeftStrs then ReplClass.attachLeft
  else if replacement = str "\n" ∨ replacement = str "\n\n" ∨
      replacement = str "\t" then ReplClass.wsControl
  else if (replacement = str "(" ∨ replacement = str "\"") ∧ ¬atStart then
    ReplClass.openBracketMid
  else if replacement = str ")" ∨ replacement = str "\"" then
    ReplClass.closeLike
  else ReplClass.literalClass

/-- Amended C2 emission by class. -/
def amendedEmit (replacement : Str) (atStart : Bool) : Str :=
  match amendedClassify replacement atStart with
  | ReplClass.attachLeft => replacement ++ str " "
  | ReplClass.wsControl => replacement
  | ReplClass.openBracketMid => str " " ++ replacement
  | ReplClass.closeLike => replacement ++ str " "
  | ReplClass.literalClass => str " " ++ replacement ++ str " "

/-- Claim C5 wording: "returns, for the first rule whose pattern is a
valid regular expression matching the observed string case-insensitively
as a substring search, exactly the union of that rule's non-null override
fields … no match, an empty observed string, or profiles disabled yields
the empty override map". -/
def claimProfileOverrides (cfg : Config) (window_class : Str) : Overrides :=
  if ¬cfg.profiles.enabled ∨ window_class = [] then {}
  else
    match cfg.profiles.rules.find?
      (fun rule =>
        (profileRuleSearch rule.window_class window_class).getD false) with
    | some rule =>
      { typing_method := rule.typing_method,
        auto_capitalize := rule.auto_capitalize }
    | none => {}

/-- Amended C5: as the claim, except that rules whose pattern is the
empty string are passed over before any regex evaluation. -/
def amendedProfileOverrides (cfg : Config) (window_class : Str) :
    Overrides :=
  if ¬cfg.profiles.enabled ∨ window_class = [] then {}
  else
    match cfg.profiles.rules.find?
      (fun rule => !rule.window_class.isEmpty &&
        (profileRuleSearch rule.window_class window_class).getD false) with
    | some rule =>
      { typing_method := rule.typing_method,
        auto_capitalize := rule.auto_capitalize }
    | none => {}

/-- Claim C8 wording: every rule whose pattern is a valid regular
expression is applied, in order, to the previous rule's output; invalid
rules are skipped. -/
def claimCustomReplace (rules : List ReplacementRule) (t : Str) : Str :=
  rules.foldl
    (fun t rule =>
      match compileRegex rule.pattern with
      | none => t
      | some r => reSub r rule.replacement t) t

/-- Amended C8: the rules actually applied are exactly those with a
nonempty, syntactically valid pattern, in order. -/
def amendedCustomReplace (rules : List ReplacementRule) (t : Str) : Str :=
  (rules.filter
    (fun rule => !rule.pattern.isEmpty && (compileRegex rule.pattern).isSome)).foldl
    (fun t rule =>
      reSub ((compileRegex rule.pattern).getD RegEx.eps) rule.replacement t) t

/-- Whether a pipeline contains the voice-command step. -/
def hasVoiceStep (steps : List PStep) : Bool :=
  steps.any (fun s =>
    match s with
    | PStep.voiceCommand _ => true
    | _ => false)

/-! ## Lemmas about the silence detector -/

/-- Decoding pairs of bytes yields one value per byte pair. -/
lemma decodePCM16_length : ∀ l : List Nat,
    (decodePCM16 l).length = l.length / 2
  | [] => by simp [decodePCM16]
  | [_] => by simp [decodePCM16]
  | b0 :: b1 :: rest => by
    simp only [decodePCM16, List.length_cons, decodePCM16_length rest]
    omega

/-- A chunk of at least two bytes decodes to at least one sample. -/
lemma decodePCM16_pos {l : List Nat} (h : 2 ≤ l.length) :
    1 ≤ (decodePCM16 l).length := by
  rw [decodePCM16_length]; omega

/-- Feeding a silent chunk of at least one sample pair adds its sample
count to the counter. -/
lemma feed_silent {d : SilenceDetector} {chunk : List Nat}
    (hlen : ¬chunk.length < 2)
    (hsil : chunkIsSilent d.threshold (decodePCM16 chunk) = true) :
    d.feed chunk =
      ({ d with silent_samples :=
          d.silent_samples + (decodePCM16 chunk).length },
       decide (d.required_samples ≤
         d.silent_samples + (decodePCM16 chunk).length)) := by
  simp [SilenceDetector.feed, hlen, hsil]

/-- Feeding a loud chunk of at least one sample pair resets the counter. -/
lemma feed_loud {d : SilenceDetector} {chunk : List Nat}
    (hlen : ¬chunk.length < 2)
    (hsil : chunkIsSilent d.threshold (decodePCM16 chunk) = false) :
    d.feed chunk = ({ d with silent_samples := 0 },
      decide (d.required_samples ≤ 0)) := by
  simp [SilenceDetector.feed, hlen, hsil]

/-- The streaming scenario: while the counter plus the samples still to
come exactly equals the requirement, every silent chunk before the last
returns `false` and the last returns `true`. -/
lemma feedAll_crossing (chunks : List (List Nat)) :
    ∀ d : SilenceDetector, chunks ≠ [] →
    (∀ c ∈ chunks, 2 ≤ c.length ∧
      chunkIsSilent d.threshold (decodePCM16 c) = true) →
    d.silent_samples +
      (chunks.map (fun c => (decodePCM16 c).length)).sum =
      d.required_samples →
    (feedAll d chunks).2 =
      List.replicate (chunks.length - 1) false ++ [true] := by
  induction chunks with
  | nil => intro d h; exact absurd rfl h
  | cons chunk rest ih =>
    intro d _ hall hsum
    obtain ⟨hlen, hsil⟩ := hall chunk (List.mem_cons_self _ _)
    have hlen' : ¬chunk.length < 2 := by omega
    have hstep := feed_silent hlen' hsil
    simp only [List.map_cons, List.sum_cons] at hsum
    cases rest with
    | nil =>
      simp only [feedAll, hstep]
      have : d.required_samples ≤
          d.silent_samples + (decodePCM16 chunk).length := by
        simp only [List.map_nil, List.sum_nil, Nat.add_zero] at hsum
        omega
      simp [this]
    | cons c2 rest' =>
      have hall' : ∀ c ∈ c2 :: rest', 2 ≤ c.length ∧
          chunkIsSilent d.threshold (decodePCM16 c) = true := by
        intro c hc; exact hall c (List.mem_cons_of_mem _ hc)
      have h2 : 1 ≤ (decodePCM16 c2).length :=
        decodePCM16_pos (hall' c2 (List.mem_cons_self _ _)).1
      have hlt : ¬d.required_samples ≤
          d.silent_samples + (decodePCM16 chunk).length := by
        simp only [List.map_cons, List.sum_cons] at hsum
        omega
      have ihres := ih ({ d with silent_samples :=
          d.silent_samples + (decodePCM16 chunk).length })
        (by simp) (by simpa using hall')
        (by dsimp only
            simp only [List.map_cons, List.sum_cons] at hsum ⊢
            omega)
      simp only [feedAll, hstep, hlt, decide_eq_false_iff_not.mpr hlt]
      simp only [feedAll] at ihres
      simp only [List.length_cons, Nat.add_sub_cancel] at ihres ⊢
      rw [List.replicate_succ]
      simp only [List.cons_append]
      exact congrArg (false :: ·) ihres

/-- Claim C4: for every sequence of PCM chunks fed to
`SilenceDetector.feed`, a chunk of fewer than 2 bytes returns `false`
without mutating state; otherwise a silent chunk (normalized RMS below
the threshold) adds its sample count to the counter and a loud chunk
resets the counter to zero; `feed` returns `true` exactly when the
updated counter has reached `required_samples`; and feeding silent chunks
totalling exactly the requirement returns `false` on every chunk before
the crossing one and `true` on it. -/
theorem C4_silence_detector_feed :
    (∀ (d : SilenceDetector) (chunk : List Nat), chunk.length < 2 →
      d.feed chunk = (d, false)) ∧
    (∀ (d : SilenceDetector) (chunk : List Nat), 2 ≤ chunk.length →
      (chunkIsSilent d.threshold (decodePCM16 chunk) = true →
        (d.feed chunk).1.silent_samples =
          d.silent_samples + (decodePCM16 chunk).length) ∧
      (chunkIsSilent d.threshold (decodePCM16 chunk) = false →
        (d.feed chunk).1.silent_samples = 0) ∧
      (d.feed chunk).2 =
        decide (d.required_samples ≤ (d.feed chunk).1.silent_samples)) ∧
    (∀ (d : SilenceDetector) (chunks : List (List Nat)), chunks ≠ [] →
      (∀ c ∈ chunks, 2 ≤ c.length ∧
        chunkIsSilent d.threshold (decodePCM16 c) = true) →
      d.silent_samples = 0 →
      (chunks.map (fun c => (decodePCM16 c).length)).sum =
        d.required_samples →
      (feedAll d chunks).2 =
        List.replicate (chunks.length - 1) false ++ [true]) := by
  refine ⟨?_, ?_, ?_⟩
  · intro d chunk h
    simp [SilenceDetector.feed, h]
  · intro d chunk h
    have h' : ¬chunk.length < 2 := by omega
    refine ⟨?_, ?_, ?_⟩
    · intro hsil; rw [feed_silent h' hsil]
    · intro hsil; rw [feed_loud h' hsil]
    · cases hsil : chunkIsSilent d.threshold (decodePCM16 chunk) with
      | true => rw [feed_silent h' hsil]
      | false => rw [feed_loud h' hsil]
  · intro d chunks hne hall hzero hsum
    exact feedAll_crossing chunks d hne hall (by rw [hzero]; simpa using hsum)

/-- Witness for C4 at concrete inputs: threshold `1/100`, four required
samples; a one-byte chunk is a no-op, and two four-byte silent chunks
produce `[false, true]`. -/
theorem C4_silence_detector_feed_witness :
    (SilenceDetector.mk (1/100) 0 4).feed [0] =
      (SilenceDetector.mk (1/100) 0 4, false) ∧
    (feedAll (SilenceDetector.mk (1/100) 0 4)
      [[0, 0, 0, 0], [0, 0, 0, 0]]).2 =
      List.replicate 1 false ++ [true] := by
  constructor
  · exact C4_silence_detector_feed.1 _ [0] (by decide)
  · exact C4_silence_detector_feed.2.2 (SilenceDetector.mk (1/100) 0 4)
      [[0, 0, 0, 0], [0, 0, 0, 0]] (by decide)
      (by
        intro c hc
        simp only [List.mem_cons, List.not_mem_nil, or_false] at hc
        rcases hc with rfl | rfl <;>
          exact ⟨by decide, by simp [chunkIsSilent, decodePCM16]⟩)
      rfl (by decide)

/-! ## Frame lemmas for pipeline steps -/

/-- `LLMCleanupStep.process` only ever rewrites `text`: whenever it
returns normally, all other context fields are untouched. -/
lemma llmCleanupProcess_frame {model : Str} {o : HTTPOutcome}
    {ctx ctx' : PipelineContext}
    (h : llmCleanupProcess model o ctx = Except.ok ctx') :
    ctx'.original_text = ctx.original_text ∧
    ctx'.model_used = ctx.model_used ∧
    ctx'.duration = ctx.duration ∧
    ctx'.window_class = ctx.window_class := by
  unfold llmCleanupProcess at h
  split at h
  · cases h; exact ⟨rfl, rfl, rfl, rfl⟩
  · split at h
    · cases h; exact ⟨rfl, rfl, rfl, rfl⟩
    · cases h; exact ⟨rfl, rfl, rfl, rfl⟩
    · cases h; exact ⟨rfl, rfl, rfl, rfl⟩
    · cases h; exact ⟨rfl, rfl, rfl, rfl⟩
    · split at h
      · split at h
        · dsimp only at h
          split at h
          · cases h; exact ⟨rfl, rfl, rfl, rfl⟩
          · cases h; exact ⟨rfl, rfl, rfl, rfl⟩
        · cases h
      · cases h

/-- Every step's `process`, when it returns normally, preserves every
context field except `text`. -/
lemma stepProcess_frame {step : PStep} {o : HTTPOutcome}
    {ctx ctx' : PipelineContext}
    (h : stepProcess step o ctx = Except.ok ctx') :
    ctx'.original_text = ctx.original_text ∧
    ctx'.model_used = ctx.model_used ∧
    ctx'.duration = ctx.duration ∧
    ctx'.window_class = ctx.window_class := by
  cases step with
  | voiceCommand custom => cases h; exact ⟨rfl, rfl, rfl, rfl⟩
  | autoCap => cases h; exact ⟨rfl, rfl, rfl, rfl⟩
  | customReplacement rules => cases h; exact ⟨rfl, rfl, rfl, rfl⟩
  | llmCleanup e m p => exact llmCleanupProcess_frame h

/-- `Pipeline.process` preserves every context field except `text`. -/
lemma pipelineProcess_frame (steps : List PStep) :
    ∀ {o : HTTPOutcome} {ctx ctx' : PipelineContext},
    pipelineProcess steps o ctx = Except.ok ctx' →
    ctx'.original_text = ctx.original_text ∧
    ctx'.model_used = ctx.model_used ∧
    ctx'.duration = ctx.duration ∧
    ctx'.window_class = ctx.window_class := by
  induction steps with
  | nil =>
    intro o ctx ctx' h
    cases h
    exact ⟨rfl, rfl, rfl, rfl⟩
  | cons step rest ih =>
    intro o ctx ctx' h
    simp only [pipelineProcess] at h
    split at h
    · rename_i mid hmid
      obtain ⟨h1, h2, h3, h4⟩ := stepProcess_frame hmid
      obtain ⟨g1, g2, g3, g4⟩ := ih h
      exact ⟨g1.trans h1, g2.trans h2, g3.trans h3, g4.trans h4⟩
    · cases h

/-- Claim C10: every pipeline step mutates at most the context's `text`:
whenever a step — and hence `Pipeline.process` as a whole — returns a
context, its `original_text`, `model_used`, `duration` and `window_class`
equal those of the input context; and a context built by the constructor
has `original_text` equal to the first observed text. -/
theorem C10_steps_mutate_only_text :
    (∀ (step : PStep) (o : HTTPOutcome) (ctx ctx' : PipelineContext),
      stepProcess step o ctx = Except.ok ctx' →
      ctx'.original_text = ctx.original_text ∧
      ctx'.model_used = ctx.model_used ∧
      ctx'.duration = ctx.duration ∧
      ctx'.window_class = ctx.window_class) ∧
    (∀ (steps : List PStep) (o : HTTPOutcome) (ctx ctx' : PipelineContext),
      pipelineProcess steps o ctx = Except.ok ctx' →
      ctx'.original_text = ctx.original_text ∧
      ctx'.model_used = ctx.model_used ∧
      ctx'.duration = ctx.duration ∧
      ctx'.window_class = ctx.window_class) ∧
    (∀ (text model_used : Str) (duration : ℚ) (window_class : Str),
      (PipelineContext.make text model_used duration
        window_class).original_text = text) :=
  ⟨fun _ _ _ _ h => stepProcess_frame h,
   fun steps _ _ _ h => pipelineProcess_frame steps h,
   fun _ _ _ _ => rfl⟩

/-- Witness for C10: the full four-step pipeline on a concrete context
returns a context with all non-`text` fields untouched. -/
theorem C10_steps_mutate_only_text_witness :
    pipelineProcess
      [PStep.voiceCommand [], PStep.autoCap,
        PStep.customReplacement [ReplacementRule.mk (str "B") (str "b")],
        PStep.llmCleanup (str "e") (str "m") (str "p")]
      (HTTPOutcome.success (Except.error ()))
      (PipelineContext.make (str "ab period") (str "base.en") 2
        (str "xterm")) =
      Except.ok (PipelineContext.mk (str "Ab.") (str "ab period")
        (str "base.en") 2 (str "xterm")) ∧
    (PipelineContext.mk (str "Ab.") (str "ab period") (str "base.en") 2
        (str "xterm")).original_text =
      (PipelineContext.make (str "ab period") (str "base.en") 2
        (str "xterm")).original_text := by
  constructor
  · rfl
  · exact (C10_steps_mutate_only_text.2.1
      [PStep.voiceCommand [], PStep.autoCap,
        PStep.customReplacement [ReplacementRule.mk (str "B") (str "b")],
        PStep.llmCleanup (str "e") (str "m") (str "p")]
      (HTTPOutcome.success (Except.error ()))
      (PipelineContext.make (str "ab period") (str "base.en") 2
        (str "xterm"))
      (PipelineContext.mk (str "Ab.") (str "ab period") (str "base.en") 2
        (str "xterm")) (by rfl)).1

/-! ## LLM cleanup: concrete behaviour, including the uncaught error -/

/-- A concrete context for exercising `LLMCleanupStep.process`. -/
def llmCtx : PipelineContext :=
  PipelineContext.make (str "raw text") (str "base.en") 2 (str "xterm")

/-- Claim C3 (code bug): `LLMCleanupStep.process` is specified never to
raise, but a successful HTTP response whose body is valid JSON and not an
object (for example `[]`) makes `result.get("response", "")` raise an
uncaught `AttributeError` — contradicting the step's own comment
"Silently fall back to original text on any error".  The listed caught
outcomes do behave as specified: connection error, timeout and malformed
JSON leave the context unchanged, a non-empty trimmed `response` replaces
the text, and an all-whitespace `response` is ignored. -/
theorem C3_llm_cleanup_uncaught_error :
    llmCleanupProcess (str "m")
      (HTTPOutcome.success (Except.ok (JSONValue.jarr []))) llmCtx =
      Except.error PyError.attributeError ∧
    llmCleanupProcess (str "m")
      (HTTPOutcome.success (Except.ok (JSONValue.jobj
        [(str "response", JSONValue.jnum 3)]))) llmCtx =
      Except.error PyError.attributeError ∧
    llmCleanupProcess (str "m") HTTPOutcome.urlError llmCtx =
      Except.ok llmCtx ∧
    llmCleanupProcess (str "m") HTTPOutcome.timeoutError llmCtx =
      Except.ok llmCtx ∧
    llmCleanupProcess (str "m") HTTPOutcome.osError llmCtx =
      Except.ok llmCtx ∧
    llmCleanupProcess (str "m") (HTTPOutcome.success (Except.error ()))
      llmCtx = Except.ok llmCtx ∧
    llmCleanupProcess (str "m")
      (HTTPOutcome.success (Except.ok (JSONValue.jobj
        [(str "response", JSONValue.jstr (str "  cleaned  "))]))) llmCtx =
      Except.ok { llmCtx with text := str "cleaned" } ∧
    llmCleanupProcess (str "m")
      (HTTPOutcome.success (Except.ok (JSONValue.jobj
        [(str "response", JSONValue.jstr (str "   "))]))) llmCtx =
      Except.ok llmCtx ∧
    llmCleanupProcess []
      (HTTPOutcome.success (Except.ok (JSONValue.jarr []))) llmCtx =
      Except.ok llmCtx :=
  ⟨rfl, rfl, rfl, rfl, rfl, rfl, rfl, rfl, rfl⟩

/-! ## Profile overrides: the matcher's possible keys, and build_pipeline -/

/-- The rule loop of `get_profile_overrides` never produces a
`voice_commands` key. -/
lemma matchProfileRules_voice_none (rules : List ProfileRule) (wc : Str) :
    (matchProfileRules rules wc).voice_commands = none := by
  induction rules with
  | nil => rfl
  | cons rule rest ih =>
    simp only [matchProfileRules]
    split
    · exact ih
    · split
      · exact ih
      · exact ih
      · rfl

/-- `get_profile_overrides` never produces a `voice_commands` key. -/
lemma get_profile_overrides_voice_none (cfg : Config) (wc : Str) :
    (get_profile_overrides cfg wc).voice_commands = none := by
  unfold get_profile_overrides
  split
  · rfl
  · exact matchProfileRules_voice_none _ _

/-- Claim C6 counterexample (negation of the claim): there is no
configuration with both voice flags enabled for which the pipeline built
from the Profile Matcher's overrides omits the voice-command step,
because the matcher only ever emits `typing_method` and
`auto_capitalize`. -/
theorem C6_counterexample :
    ¬ ∃ (cfg : Config) (wc : Str),
      cfg.pipeline.voice_commands = true ∧
      cfg.voice_commands.enabled = true ∧
      hasVoiceStep (build_pipeline cfg (get_profile_overrides cfg wc)) =
        false := by
  rintro ⟨cfg, wc, h1, h2, h3⟩
  rw [build_pipeline] at h3
  rw [get_profile_overrides_voice_none cfg wc] at h3
  simp [h1, h2, hasVoiceStep] at h3

/-- A concrete configuration with voice commands fully enabled and one
profile rule. -/
def cfgVoiceOn : Config :=
  Config.mk (PipelineConfig.mk true true [] (LLMConfig.mk false [] [] []))
    (VoiceCommandsConfig.mk true [])
    (ProfilesConfig.mk true
      [ProfileRule.mk (str "term") (some (str "clipboard")) (some false)])

/-- Amended C6: `build_pipeline` does honour a `voice_commands` override
key when the overrides map contains one, but `get_profile_overrides`
never emits that key, so with both flags enabled the voice-command step
is present for every window class; the per-application override exists
only for maps built by other means. -/
theorem C6_amended :
    (∀ (cfg : Config) (wc : Str),
      (get_profile_overrides cfg wc).voice_commands = none) ∧
    (∀ (cfg : Config) (wc : Str),
      cfg.pipeline.voice_commands = true →
      cfg.voice_commands.enabled = true →
      hasVoiceStep (build_pipeline cfg (get_profile_overrides cfg wc)) =
        true) ∧
    (∃ (cfg : Config) (ov : Overrides),
      cfg.pipeline.voice_commands = true ∧
      cfg.voice_commands.enabled = true ∧
      ov.voice_commands = some false ∧
      hasVoiceStep (build_pipeline cfg ov) = false) := by
  refine ⟨get_profile_overrides_voice_none, ?_, ?_⟩
  · intro cfg wc h1 h2
    rw [build_pipeline, get_profile_overrides_voice_none cfg wc]
    simp [h1, h2, hasVoiceStep]
  · exact ⟨cfgVoiceOn, Overrides.mk none none (some false), rfl, rfl, rfl,
      by decide⟩

/-- Witness for C6 (amended): with the concrete enabled configuration and
window class "xterm", the voice step is present. -/
theorem C6_amended_witness :
    hasVoiceStep
      (build_pipeline cfgVoiceOn
        (get_profile_overrides cfgVoiceOn (str "xterm"))) = true :=
  C6_amended.2.1 cfgVoiceOn (str "xterm") rfl rfl

/-! ## Claim C5: profile rule resolution -/

/-- The skip-or-return rule loop equals a first-match search over rules
with nonempty, valid, matching patterns. -/
lemma matchProfileRules_eq_find (rules : List ProfileRule) (wc : Str) :
    matchProfileRules rules wc =
      (match rules.find?
        (fun rule => !rule.window_class.isEmpty &&
          (profileRuleSearch rule.window_class wc).getD false) with
      | some rule =>
        { typing_method := rule.typing_method,
          auto_capitalize := rule.auto_capitalize }
      | none => ({} : Overrides)) := by
  induction rules with
  | nil => rfl
  | cons rule rest ih =>
    simp only [matchProfileRules]
    split
    · rename_i hempty
      rw [List.find?_cons_of_neg]
      · exact ih
      · simp [hempty]
    · rename_i hne
      have hne' : rule.window_class.isEmpty = false := by
        simpa [List.isEmpty_iff] using hne
      split
      · rename_i hsearch
        rw [List.find?_cons_of_neg]
        · exact ih
        · simp [hne', hsearch]
      · rename_i hsearch
        rw [List.find?_cons_of_neg]
        · exact ih
        · simp [hne', hsearch]
      · rename_i hsearch
        rw [List.find?_cons_of_pos]
        simp [hne', hsearch]

/-- A configuration whose only profile rule has an empty pattern. -/
def cfgEmptyPattern : Config :=
  Config.mk (PipelineConfig.mk true true [] (LLMConfig.mk false [] [] []))
    (VoiceCommandsConfig.mk true [])
    (ProfilesConfig.mk true
      [ProfileRule.mk [] (some (str "clipboard")) none])

/-- Claim C5 counterexample: an empty pattern is a valid regular
expression that matches every observed string as a substring search, so
the claim demands its rule's overrides; the code's `if not pattern:
continue` skips the rule instead and returns the empty map. -/
theorem C5_counterexample :
    claimProfileOverrides cfgEmptyPattern (str "firefox") =
      Overrides.mk (some (str "clipboard")) none none ∧
    get_profile_overrides cfgEmptyPattern (str "firefox") =
      Overrides.mk none none none ∧
    Overrides.mk (some (str "clipboard")) none none ≠
      Overrides.mk none none none := by
  refine ⟨rfl, rfl, ?_⟩
  intro h
  cases h

/-- A configuration with the claim's example rule `term → clipboard`. -/
def cfgTermRule : Config :=
  Config.mk (PipelineConfig.mk true true [] (LLMConfig.mk false [] [] []))
    (VoiceCommandsConfig.mk true [])
    (ProfilesConfig.mk true
      [ProfileRule.mk (str "term") (some (str "clipboard")) none])

/-- Amended C5: rules are scanned in order and the first rule with a
nonempty pattern that is a valid regular expression matching the
observed window class case-insensitively yields exactly its non-null
override fields; empty-pattern rules and invalid patterns are skipped;
disabled profiles, an empty observed string or no match give the empty
map.  The claim's own example still holds: `term`/`clipboard` matches
"xterm" and not "firefox". -/
theorem C5_profile_overrides :
    (∀ (cfg : Config) (wc : Str),
      get_profile_overrides cfg wc = amendedProfileOverrides cfg wc) ∧
    get_profile_overrides cfgTermRule (str "xterm") =
      Overrides.mk (some (str "clipboard")) none none ∧
    get_profile_overrides cfgTermRule (str "firefox") =
      Overrides.mk none none none ∧
    (∀ (cfg : Config) (wc : Str), cfg.profiles.enabled = false →
      get_profile_overrides cfg wc = {}) ∧
    (∀ cfg : Config, get_profile_overrides cfg [] = {}) := by
  refine ⟨?_, rfl, rfl, ?_, ?_⟩
  · intro cfg wc
    unfold get_profile_overrides amendedProfileOverrides
    split
    · rfl
    · exact matchProfileRules_eq_find cfg.profiles.rules wc
  · intro cfg wc h
    unfold get_profile_overrides
    split
    · rfl
    · rename_i hcond
      rw [h] at hcond
      simp at hcond
  · intro cfg
    unfold get_profile_overrides
    split
    · rfl
    · rename_i hcond
      simp at hcond

/-- Witness for C5 (amended) at a concrete disabled configuration. -/
theorem C5_profile_overrides_witness :
    get_profile_overrides
      (Config.mk
        (PipelineConfig.mk true true [] (LLMConfig.mk false [] [] []))
        (VoiceCommandsConfig.mk true [])
        (ProfilesConfig.mk false
          [ProfileRule.mk (str "term") (some (str "clipboard")) none]))
      (str "xterm") = {} :=
  C5_profile_overrides.2.2.2.1
    (Config.mk (PipelineConfig.mk true true [] (LLMConfig.mk false [] [] []))
      (VoiceCommandsConfig.mk true [])
      (ProfilesConfig.mk false
        [ProfileRule.mk (str "term") (some (str "clipboard")) none]))
    (str "xterm") rfl

/-! ## Claim C8: custom replacement rules -/

/-- The rule fold of `CustomReplacementStep.process` applies exactly the
rules with a nonempty valid pattern, in order. -/
lemma customReplace_eq_filtered (rules : List ReplacementRule) :
    ∀ t, customReplace rules t = amendedCustomReplace rules t := by
  induction rules with
  | nil => intro t; rfl
  | cons rule rest ih =>
    intro t
    simp only [customReplace, amendedCustomReplace, List.foldl_cons] at ih ⊢
    by_cases hemp : rule.pattern = []
    · have happ : applyReplacementRule t rule = t := by
        simp [applyReplacementRule, hemp]
      have hcond : (!rule.pattern.isEmpty &&
          (compileRegex rule.pattern).isSome) = false := by
        simp [hemp]
      rw [happ]
      simp only [List.filter_cons, hcond]
      simpa using ih t
    · have hne : rule.pattern.isEmpty = false := by
        simpa [List.isEmpty_iff] using hemp
      cases hcomp : compileRegex rule.pattern with
      | none =>
        have happ : applyReplacementRule t rule = t := by
          simp [applyReplacementRule, hemp, hcomp]
        have hcond : (!rule.pattern.isEmpty &&
            (compileRegex rule.pattern).isSome) = false := by
          simp [hne, hcomp]
        rw [happ]
        simp only [List.filter_cons, hcond]
        simpa using ih t
      | some r =>
        have happ : applyReplacementRule t rule =
            reSub r rule.replacement t := by
          simp [applyReplacementRule, hemp, hcomp]
        have hcond : (!rule.pattern.isEmpty &&
            (compileRegex rule.pattern).isSome) = true := by
          simp [hne, hcomp]
        rw [happ]
        simp only [List.filter_cons, hcond]
        rw [ih (reSub r rule.replacement t)]
        simp [List.foldl_cons, hcomp]

/-- Claim C8 counterexample: the empty pattern is a valid regular
expression (`re.sub("", "X", "ab")` returns `"XaXbX"`), yet the code's
`if pattern:` guard skips the rule, so a valid rule in the list is not
applied as the claim requires. -/
theorem C8_counterexample :
    claimCustomReplace [ReplacementRule.mk [] (str "X")] (str "ab") =
      str "XaXbX" ∧
    customReplace [ReplacementRule.mk [] (str "X")] (str "ab") =
      str "ab" ∧
    str "XaXbX" ≠ str "ab" := by
  refine ⟨rfl, rfl, ?_⟩
  intro h
  cases h

/-- Amended C8: rules are applied in order, each to the previous rule's
output; a rule whose pattern is empty or not a valid regular expression
is skipped silently, leaving the text unchanged for that rule, and every
other rule before and after it is still applied. -/
theorem C8_custom_replacement :
    (∀ (rules : List ReplacementRule) (t : Str),
      customReplace rules t = amendedCustomReplace rules t) ∧
    (∀ (pre post : List ReplacementRule) (rule : ReplacementRule)
      (t : Str), compileRegex rule.pattern = none →
      customReplace (pre ++ rule :: post) t =
        customReplace (pre ++ post) t) := by
  constructor
  · intro rules t
    exact customReplace_eq_filtered rules t
  · intro pre post rule t hbad
    unfold customReplace
    rw [List.foldl_append, List.foldl_append, List.foldl_cons]
    have : applyReplacementRule (List.foldl applyReplacementRule t pre)
        rule = List.foldl applyReplacementRule t pre := by
      unfold applyReplacementRule
      split
      · rfl
      · rw [hbad]
    rw [this]

/-- Witness for C8 (amended): the invalid pattern `(` between two valid
rules changes nothing, and the surrounding valid rules still fire. -/
theorem C8_custom_replacement_witness :
    compileRegex (str "(") = none ∧
    customReplace
      [ReplacementRule.mk (str "a+") (str "A"),
        ReplacementRule.mk (str "(") (str "B"),
        ReplacementRule.mk (str "Ab") (str "C")] (str "aab x") =
      customReplace
        [ReplacementRule.mk (str "a+") (str "A"),
          ReplacementRule.mk (str "Ab") (str "C")] (str "aab x") ∧
    customReplace
      [ReplacementRule.mk (str "a+") (str "A"),
        ReplacementRule.mk (str "(") (str "B"),
        ReplacementRule.mk (str "Ab") (str "C")] (str "aab x") =
      str "C x" := by
  refine ⟨by decide, ?_, by decide⟩
  exact C8_custom_replacement.2 [ReplacementRule.mk (str "a+") (str "A")]
    [ReplacementRule.mk (str "Ab") (str "C")]
    (ReplacementRule.mk (str "(") (str "B")) (str "aab x") (by decide)

/-! ## Character-level lemmas for the ASCII case maps -/
lemma char_toNat_ofNat {n : Nat} (h : n < 55296) :
    (Char.ofNat n).toNat = n := by
  have hvn : Nat.isValidChar n := Or.inl h
  rw [Char.ofNat, dif_pos hvn]
  simp [Char.ofNatAux, Char.toNat, UInt32.toNat]

lemma isLowerAZ_toNat {c : Char} (h : isLowerAZ c = true) :
    97 ≤ c.toNat ∧ c.toNat ≤ 122 := by
  simp only [isLowerAZ, Bool.and_eq_true, decide_eq_true_eq] at h
  exact ⟨h.1, h.2⟩

lemma isUpperAZ_toNat {c : Char} (h : isUpperAZ c = true) :
    65 ≤ c.toNat ∧ c.toNat ≤ 90 := by
  simp only [isUpperAZ, Bool.and_eq_true, decide_eq_true_eq] at h
  exact ⟨h.1, h.2⟩

lemma upperChar_toNat {c : Char} (h : isLowerAZ c = true) :
    (upperChar c).toNat = c.toNat - 32 := by
  rw [upperChar, if_pos h]
  exact char_toNat_ofNat (by have := isLowerAZ_toNat h; omega)

lemma lowerChar_toNat {c : Char} (h : isUpperAZ c = true) :
    (lowerChar c).toNat = c.toNat + 32 := by
  rw [lowerChar, if_pos h]
  exact char_toNat_ofNat (by have := isUpperAZ_toNat h; omega)

lemma upperChar_eq_self {c : Char} (h : isLowerAZ c = false) :
    upperChar c = c := by
  rw [upperChar, if_neg (by simp [h])]

lemma lowerChar_eq_self {c : Char} (h : isUpperAZ c = false) :
    lowerChar c = c := by
  rw [lowerChar, if_neg (by simp [h])]

/-- A basic-latin letter is no whitespace, sentence ender, clause
boundary, or newline. -/
lemma letter_not_special {e : Char} (h1 : 65 ≤ e.toNat) :
    isWS e = false ∧ isSentenceEnder e = false ∧
    isClauseBoundary e = false ∧ e ≠ '\n' := by
  refine ⟨?_, ?_, ?_, ?_⟩
  · simp only [isWS, Bool.or_eq_false_iff, decide_eq_false_iff_not]
    refine ⟨⟨⟨⟨⟨?_, ?_⟩, ?_⟩, ?_⟩, ?_⟩, ?_⟩ <;>
      (intro he; rw [he] at h1; exact absurd h1 (by decide))
  · simp only [isSentenceEnder, Bool.or_eq_false_iff,
      decide_eq_false_iff_not]
    refine ⟨⟨?_, ?_⟩, ?_⟩ <;>
      (intro he; rw [he] at h1; exact absurd h1 (by decide))
  · simp only [isClauseBoundary, Bool.or_eq_false_iff,
      decide_eq_false_iff_not]
    refine ⟨⟨⟨?_, ?_⟩, ?_⟩, ?_⟩ <;>
      (intro he; rw [he] at h1; exact absurd h1 (by decide))
  · intro he; rw [he] at h1; exact absurd h1 (by decide)

lemma upperChar_class {c : Char} (h : isLowerAZ c = true) :
    isLowerAZ (upperChar c) = false ∧ isWS (upperChar c) = false ∧
    isSentenceEnder (upperChar c) = false ∧ upperChar c ≠ '\n' := by
  have hb := isLowerAZ_toNat h
  have ht := upperChar_toNat h
  have hsp := letter_not_special (e := upperChar c) (by omega)
  refine ⟨?_, hsp.1, hsp.2.1, hsp.2.2.2⟩
  simp only [isLowerAZ, Bool.and_eq_false_iff]
  left
  simp only [decide_eq_false_iff_not]
  intro hc
  have h97 : 97 ≤ (upperChar c).toNat := hc
  omega

lemma lower_letter_class {c : Char} (h : isLowerAZ c = true) :
    isWS c = false ∧ isSentenceEnder c = false ∧ c ≠ '\n' := by
  have hb := isLowerAZ_toNat h
  have hsp := letter_not_special (e := c) (by omega)
  exact ⟨hsp.1, hsp.2.1, hsp.2.2.2⟩

lemma upperChar_idem (c : Char) : upperChar (upperChar c) = upperChar c := by
  by_cases h : isLowerAZ c = true
  · exact upperChar_eq_self (upperChar_class h).1
  · have h' : isLowerAZ c = false := by simpa using h
    rw [upperChar_eq_self h', upperChar_eq_self h']

lemma capTermGo_cons (st : Nat) (c : Char) (cs : Str) :
    capTermGo st (c :: cs) =
      (if capTermHit st c then upperChar c else c) ::
        capTermGo (capTermUpd st c) cs := rfl

lemma capNLGo_cons (b : Bool) (c : Char) (cs : Str) :
    capNLGo b (c :: cs) =
      (if capNLHit b c then upperChar c else c) ::
        capNLGo (capNLUpd b c) cs := rfl

lemma capTermUpd_upperChar (st : Nat) {c : Char}
    (h : isLowerAZ c = true) :
    capTermUpd st (upperChar c) = capTermUpd st c := by
  obtain ⟨_, hw, he, _⟩ := upperChar_class h
  obtain ⟨hw2, he2, _⟩ := lower_letter_class h
  simp [capTermUpd, he, hw, he2, hw2]

lemma capNLUpd_upperChar (b : Bool) {c : Char} (h : isLowerAZ c = true) :
    capNLUpd b (upperChar c) = capNLUpd b c := by
  obtain ⟨_, hw, _, hn⟩ := upperChar_class h
  obtain ⟨hw2, _, hn2⟩ := lower_letter_class h
  simp [capNLUpd, hn, hw, hn2, hw2]

lemma capTermHit_upperChar (st : Nat) {c : Char} (h : isLowerAZ c = true) :
    capTermHit st (upperChar c) = false := by
  simp [capTermHit, (upperChar_class h).1]

lemma capNLHit_upperChar (b : Bool) {c : Char} (h : isLowerAZ c = true) :
    capNLHit b (upperChar c) = false := by
  simp [capNLHit, (upperChar_class h).1]

lemma capNLGo_idem (t : Str) :
    ∀ b, capNLGo b (capNLGo b t) = capNLGo b t := by
  induction t with
  | nil => intro b; rfl
  | cons c cs ih =>
    intro b
    rw [capNLGo_cons]
    by_cases hN : capNLHit b c = true
    · have hlc : isLowerAZ c = true := by
        simp only [capNLHit, Bool.and_eq_true] at hN; exact hN.2
      rw [if_pos hN, capNLGo_cons, capNLHit_upperChar b hlc,
        if_neg Bool.false_ne_true, capNLUpd_upperChar b hlc,
        ih (capNLUpd b c)]
    · rw [if_neg hN, capNLGo_cons, if_neg hN, ih (capNLUpd b c)]

lemma capTerm_capNL_capTerm (t : Str) :
    ∀ (st : Nat) (b : Bool),
    capTermGo st (capNLGo b (capTermGo st t)) =
      capNLGo b (capTermGo st t) := by
  induction t with
  | nil => intro st b; rfl
  | cons c cs ih =>
    intro st b
    rw [capTermGo_cons]
    by_cases hT : capTermHit st c = true
    · have hlc : isLowerAZ c = true := by
        simp only [capTermHit, Bool.and_eq_true] at hT; exact hT.2
      rw [if_pos hT, capNLGo_cons, capNLHit_upperChar b hlc,
        if_neg Bool.false_ne_true, capTermGo_cons,
        capTermHit_upperChar st hlc, if_neg Bool.false_ne_true,
        capTermUpd_upperChar st hlc,
        ih (capTermUpd st c) (capNLUpd b (upperChar c))]
    · rw [if_neg hT, capNLGo_cons]
      by_cases hN : capNLHit b c = true
      · have hlc : isLowerAZ c = true := by
          simp only [capNLHit, Bool.and_eq_true] at hN; exact hN.2
        rw [if_pos hN, capTermGo_cons, capTermHit_upperChar st hlc,
          if_neg Bool.false_ne_true, capTermUpd_upperChar st hlc,
          ih (capTermUpd st c) (capNLUpd b c)]
      · rw [if_neg hN, capTermGo_cons, if_neg hT,
          ih (capTermUpd st c) (capNLUpd b c)]

lemma autoCapitalize_idem (t : Str) :
    autoCapitalize (autoCapitalize t) = autoCapitalize t := by
  cases t with
  | nil => rfl
  | cons c cs =>
    have h0 : ∀ x : Char, capTermHit 0 x = false := by
      intro x; simp [capTermHit]
    have hnl : ∀ x : Char, capNLHit false x = false := by
      intro x; simp [capNLHit]
    have hinner : autoCapitalize (c :: cs) =
        upperChar c :: capNLGo (capNLUpd false (upperChar c))
          (capTermGo (capTermUpd 0 (upperChar c)) cs) := by
      simp only [autoCapitalize]
      rw [capTermGo_cons, h0, if_neg Bool.false_ne_true,
        capNLGo_cons, hnl, if_neg Bool.false_ne_true]
    rw [hinner]
    simp only [autoCapitalize]
    rw [upperChar_idem, capTermGo_cons, h0, if_neg Bool.false_ne_true,
      capNLGo_cons, hnl, if_neg Bool.false_ne_true,
      capTerm_capNL_capTerm cs (capTermUpd 0 (upperChar c))
        (capNLUpd false (upperChar c)),
      capNLGo_idem]

/-- Claim C7: `AutoCapitalizeStep.process` is idempotent — applying the
step twice produces the same text, and the same context, as applying it
once. -/
theorem C7_auto_capitalize_idempotent :
    (∀ t : Str, autoCapitalize (autoCapitalize t) = autoCapitalize t) ∧
    (∀ (o o' : HTTPOutcome) (ctx : PipelineContext),
      (stepProcess PStep.autoCap o ctx).bind
        (stepProcess PStep.autoCap o') =
        stepProcess PStep.autoCap o ctx) := by
  constructor
  · exact autoCapitalize_idem
  · intro o o' ctx
    simp only [stepProcess, Except.bind]
    rw [autoCapitalize_idem]

/-! ## Lemmas for the action pass: strict decrease -/

lemma lstrip_length_le (s : Str) : (lstrip s).length ≤ s.length :=
  (List.dropWhile_sublist _).length_le

lemma rstrip_length_le (s : Str) : (rstrip s).length ≤ s.length := by
  unfold rstrip
  rw [List.length_reverse]
  calc (s.reverse.dropWhile isWS).length ≤ s.reverse.length :=
        (List.dropWhile_sublist _).length_le
    _ = s.length := List.length_reverse s

lemma lastBoundaryIdx_lt {t : Str} {i : Nat}
    (h : lastBoundaryIdx t = some i) : i < t.length := by
  unfold lastBoundaryIdx at h
  cases hf : t.reverse.findIdx? (fun c => isClauseBoundary c) with
  | none => rw [hf] at h; cases h
  | some j =>
    rw [hf] at h
    cases h
    have h1 : 1 ≤ t.length := by
      cases t with
      | nil => simp at hf
      | cons a b => simp
    omega

lemma delete_last_clause_length (y : Str) :
    (delete_last_clause y).length ≤ y.length + 1 := by
  unfold delete_last_clause
  dsimp only
  split
  · exact Nat.le_succ_of_le (rstrip_length_le y)
  · split
    · rename_i hne i hi
      have hlt := lastBoundaryIdx_lt hi
      have h1 : (rstrip y).length ≤ y.length := rstrip_length_le y
      simp only [List.length_append, List.length_take, List.length_cons,
        List.length_nil]
      omega
    · simp

lemma isPrefixOf_exists_append : ∀ {p t : Str}, p.isPrefixOf t = true →
    ∃ b, t = p ++ b
  | [], t, _ => ⟨t, rfl⟩
  | _ :: _, [], h => by cases h
  | p0 :: p', t0 :: t', h => by
    simp only [List.isPrefixOf, Bool.and_eq_true, beq_iff_eq] at h
    obtain ⟨b, hb⟩ := isPrefixOf_exists_append h.2
    exact ⟨b, by rw [h.1, hb]; rfl⟩

lemma isPrefixOf_of_exists_append {p b : Str} :
    p.isPrefixOf (p ++ b) = true := by
  induction p with
  | nil => simp [List.isPrefixOf]
  | cons c p' ih => simp [List.isPrefixOf, ih]

lemma isPrefixOf_length {p t : Str} (h : p.isPrefixOf t = true) :
    p.length ≤ t.length := by
  obtain ⟨b, hb⟩ := isPrefixOf_exists_append h
  rw [hb]
  simp

lemma findCI_le {p t : Str} {s : Nat} (h : findCI p t = some s) :
    s + p.length ≤ t.length := by
  induction t generalizing s with
  | nil =>
    simp only [findCI] at h
    split at h
    · rename_i hp
      cases h
      have hl := isPrefixOf_length hp
      simp only [lowerStr, List.length_map] at hl
      simpa using hl
    · cases h
  | cons c t' ih =>
    simp only [findCI] at h
    split at h
    · rename_i hp
      cases h
      have hl := isPrefixOf_length hp
      simp only [lowerStr, List.length_map] at hl
      simpa using hl
    · cases hrec : findCI p t' with
      | none => rw [hrec] at h; cases h
      | some s' =>
        rw [hrec] at h
        cases h
        have := ih hrec
        simp only [List.length_cons]
        omega

lemma actionDeleteStep_length {p text r : Str} (hp : 2 ≤ p.length)
    (h : actionDeleteStep p text = some r) : r.length < text.length := by
  unfold actionDeleteStep at h
  cases hf : findCI p text with
  | none => rw [hf] at h; cases h
  | some s =>
    rw [hf] at h
    simp only [Option.some_inj] at h
    have hle := findCI_le hf
    have h1 := delete_last_clause_length (rstrip (text.take s))
    have h2 := rstrip_length_le (text.take s)
    have h3 := lstrip_length_le (text.drop (s + p.length))
    have h4 : (text.take s).length = min s text.length := List.length_take s text
    have h5 : (text.drop (s + p.length)).length =
        text.length - (s + p.length) := List.length_drop _ _
    subst h
    simp only [List.length_append]
    omega

/-! ## Occurrence machinery for phrase preservation -/

/-- `p` occurs (as a contiguous substring) in `t`. -/
def OccursIn (p t : Str) : Prop := ∃ a b, t = a ++ p ++ b

lemma findCI_isPrefixOf_drop {p t : Str} {s : Nat} (h : findCI p t = some s) :
    (lowerStr p).isPrefixOf (lowerStr (t.drop s)) = true := by
  induction t generalizing s with
  | nil =>
    simp only [findCI] at h
    split at h
    · rename_i hp; cases h; exact hp
    · cases h
  | cons c t' ih =>
    simp only [findCI] at h
    split at h
    · rename_i hp; cases h; exact hp
    · cases hrec : findCI p t' with
      | none => rw [hrec] at h; cases h
      | some s' =>
        rw [hrec] at h
        cases h
        exact ih hrec

lemma occursIn_lower_of_findCI_some {p t : Str} {s : Nat}
    (h : findCI p t = some s) : OccursIn (lowerStr p) (lowerStr t) := by
  obtain ⟨b, hb⟩ := isPrefixOf_exists_append (findCI_isPrefixOf_drop h)
  refine ⟨lowerStr (t.take s), b, ?_⟩
  have : (t.take s) ++ (t.drop s) = t := List.take_append_drop s t
  calc lowerStr t = lowerStr (t.take s ++ t.drop s) := by rw [this]
    _ = lowerStr (t.take s) ++ lowerStr (t.drop s) := List.map_append _ _ _
    _ = lowerStr (t.take s) ++ (lowerStr p ++ b) := by rw [hb]
    _ = lowerStr (t.take s) ++ lowerStr p ++ b := by rw [List.append_assoc]

lemma findCI_isSome_of_occursIn {p t : Str}
    (h : OccursIn (lowerStr p) (lowerStr t)) : (findCI p t).isSome = true := by
  obtain ⟨a, b, hab⟩ := h
  induction t generalizing a with
  | nil =>
    simp only [lowerStr, List.map_nil] at hab
    have h0 : lowerStr p = [] := by
      rcases List.append_eq_nil.mp hab.symm with ⟨h1, h2⟩
      rcases List.append_eq_nil.mp h1 with ⟨_, h3⟩
      exact h3
    simp [findCI, h0, List.isPrefixOf]
  | cons c t' ih =>
    cases a with
    | nil =>
      simp only [List.nil_append] at hab
      have : (lowerStr p).isPrefixOf (lowerStr (c :: t')) = true := by
        rw [hab]
        exact isPrefixOf_of_exists_append
      simp [findCI, this]
    | cons x a' =>
      simp only [lowerStr, List.map_cons, List.cons_append] at hab
      have htail : lowerStr t' = a' ++ lowerStr p ++ b := by
        have h2 := congrArg List.tail hab
        simpa using h2
      have := ih a' htail
      simp only [findCI]
      split
      · simp
      · simpa using this

lemma containsCI_false_iff (p t : Str) :
    containsCI p t = false ↔ ¬ OccursIn (lowerStr p) (lowerStr t) := by
  constructor
  · intro h hocc
    have := findCI_isSome_of_occursIn hocc
    rw [containsCI] at h
    rw [this] at h
    cases h
  · intro h
    cases hf : findCI p t with
    | none => simp [containsCI, hf]
    | some s => exact absurd (occursIn_lower_of_findCI_some hf) h

lemma occursIn_mono {p v u : Str} (h : OccursIn p v) (hvu : v <:+: u) :
    OccursIn p u := by
  obtain ⟨a, b, hab⟩ := h
  obtain ⟨l, r, hlr⟩ := hvu
  refine ⟨l ++ a, b ++ r, ?_⟩
  rw [← hlr, hab]
  simp [List.append_assoc]

lemma occursIn_append_cases {p x y : Str} (h : OccursIn p (x ++ y)) :
    OccursIn p x ∨ OccursIn p y ∨
    ∃ p1 p2, p = p1 ++ p2 ∧ p1 ≠ [] ∧ p2 ≠ [] ∧ p1 <:+ x ∧ p2 <+: y := by
  obtain ⟨a, b, hab⟩ := h
  have hab' : (a ++ p) ++ b = x ++ y := by
    rw [← hab]
  rcases List.append_eq_append_iff.mp hab' with ⟨w, hw1, hw2⟩ | ⟨w, hw1, hw2⟩
  · -- x = (a ++ p) ++ w
    left
    exact ⟨a, w, by rw [hw1]⟩
  · -- a ++ p = x ++ w, y = w ++ b
    rcases List.append_eq_append_iff.mp hw1 with ⟨v, hv1, hv2⟩ | ⟨v, hv1, hv2⟩
    · -- x = a ++ v and p = v ++ w
      by_cases hw : w = []
      · subst hw
        left
        refine ⟨a, [], ?_⟩
        simp [hv1, hv2]
      · by_cases hv : v = []
        · subst hv
          right; left
          refine ⟨[], b, ?_⟩
          simp [hw2, hv2]
        · right; right
          exact ⟨v, w, hv2, hv, hw, ⟨a, hv1.symm⟩, ⟨b, hw2.symm⟩⟩
    · -- a = x ++ v and w = v ++ p
      right; left
      exact ⟨v, b, by simp [hw2, hv2, List.append_assoc]⟩

lemma suffix_append_singleton {p1 w : Str} {z : Char}
    (h : p1 <:+ w ++ [z]) (hne : p1 ≠ []) :
    ∃ p1', p1 = p1' ++ [z] ∧ p1' <:+ w := by
  obtain ⟨s, hs⟩ := h
  have hp1 : p1.dropLast ++ [p1.getLast hne] = p1 :=
    List.dropLast_append_getLast hne
  rw [← hp1, ← List.append_assoc] at hs
  have hlen : [p1.getLast hne].length = [z].length := rfl
  obtain ⟨h1, h2⟩ := List.append_inj' hs hlen
  have hz : p1.getLast hne = z := by
    injection h2 with h2a
  refine ⟨p1.dropLast, ?_, ⟨s, h1⟩⟩
  conv_lhs => rw [← hp1]
  rw [hz]

lemma occursIn_singleton {q : Str} {z : Char} (h : OccursIn q [z])
    (hne : q ≠ []) : q = [z] := by
  obtain ⟨a, b, hab⟩ := h
  have hlen := congrArg List.length hab
  simp only [List.length_append, List.length_cons, List.length_nil] at hlen
  have hq1 : 1 ≤ q.length := by
    cases q with
    | nil => exact absurd rfl hne
    | cons _ _ => simp
  have ha : a = [] := List.eq_nil_of_length_eq_zero (by omega)
  have hb : b = [] := List.eq_nil_of_length_eq_zero (by omega)
  rw [ha, hb] at hab
  simpa using hab.symm

lemma rstrip_isPrefix (s : Str) : rstrip s <+: s := by
  unfold rstrip
  obtain ⟨pre, hpre⟩ : s.reverse.dropWhile isWS <:+ s.reverse :=
    List.dropWhile_suffix _
  refine ⟨pre.reverse, ?_⟩
  have := congrArg List.reverse hpre
  rw [List.reverse_append, List.reverse_reverse] at this
  exact this

lemma lstrip_suffix (s : Str) : lstrip s <:+ s := List.dropWhile_suffix _

lemma lastBoundaryIdx_getElem {t : Str} {i : Nat}
    (h : lastBoundaryIdx t = some i) :
    ∃ (hi : i < t.length), isClauseBoundary t[i] = true := by
  have hlt := lastBoundaryIdx_lt h
  refine ⟨hlt, ?_⟩
  unfold lastBoundaryIdx at h
  cases hf : t.reverse.findIdx? (fun c => isClauseBoundary c) with
  | none => rw [hf] at h; cases h
  | some j =>
    rw [hf] at h
    cases h
    obtain ⟨hjlt, hfi⟩ := List.findIdx?_eq_some_iff_findIdx_eq.mp hf
    have hw : t.reverse.findIdx (fun c => isClauseBoundary c) <
        t.reverse.length := by rw [hfi]; exact hjlt
    have hget0 : isClauseBoundary
        (t.reverse.get
          ⟨t.reverse.findIdx (fun c => isClauseBoundary c), hw⟩) =
        true := by
      have hg := List.findIdx_getElem (w := hw)
      simpa [List.get_eq_getElem] using hg
    rw [List.get_eq_getElem, List.getElem_reverse] at hget0
    convert hget0 using 3
    simp only [Fin.val_mk]
    omega

lemma delete_last_clause_cases (y : Str) :
    delete_last_clause y = [] ∨
    ∃ K cb, delete_last_clause y = (K ++ [cb]) ++ [' '] ∧
      isClauseBoundary cb = true ∧ (K ++ [cb]) <+: rstrip y := by
  unfold delete_last_clause
  dsimp only
  split
  · rename_i hemp
    left
    exact hemp
  · split
    · rename_i hne i hi
      obtain ⟨hlt, hget⟩ := lastBoundaryIdx_getElem hi
      right
      refine ⟨(rstrip y).take i, (rstrip y)[i], ?_, hget, ?_⟩
      · have := List.take_succ (l := rstrip y) (n := i)
        rw [this, List.getElem?_eq_getElem hlt]
        simp
      · have h1 : (rstrip y).take i ++ [(rstrip y)[i]] =
            (rstrip y).take (i + 1) := by
          rw [List.take_succ, List.getElem?_eq_getElem hlt]
          simp
        rw [h1]
        exact ⟨(rstrip y).drop (i + 1), List.take_append_drop _ _⟩
    · left; rfl

/-- One action deletion rebuilt from pieces of `v` cannot introduce an
occurrence of a phrase `q` that does not start with a space and contains
no clause-boundary character. -/
lemma step_preserves_not_occursIn {q v : Str} (s e : Nat)
    (hq0 : q ≠ []) (hqh : q.head? ≠ some ' ')
    (hqb : ∀ c ∈ q, isClauseBoundary c = false)
    (hv : ¬ OccursIn q v) :
    ¬ OccursIn q
      (delete_last_clause (rstrip (v.take s)) ++ lstrip (v.drop e)) := by
  intro hocc
  have hAinf : lstrip (v.drop e) <:+: v :=
    ((lstrip_suffix (v.drop e)).trans (List.drop_suffix e v)).isInfix
  rcases delete_last_clause_cases (rstrip (v.take s)) with hnil |
    ⟨K, cb, heq, hcb, hpre⟩
  · rw [hnil, List.nil_append] at hocc
    exact hv (occursIn_mono hocc hAinf)
  · rw [heq] at hocc
    have hKinf : (K ++ [cb]) <:+: v :=
      (((hpre.trans (rstrip_isPrefix (rstrip (v.take s)))).trans
        (rstrip_isPrefix (v.take s))).trans (⟨v.drop s, List.take_append_drop s v⟩ : v.take s <+: v)).isInfix
    have hcbq : cb ∉ q := by
      intro hmem
      have := hqb cb hmem
      rw [hcb] at this
      cases this
    rcases occursIn_append_cases hocc with h1 | h2 |
      ⟨p1, p2, hps, hp1ne, hp2ne, hsuf, hpref⟩
    · rcases occursIn_append_cases h1 with g1 | g2 |
        ⟨r1, r2, hrs, hr1ne, hr2ne, hrsuf, hrpref⟩
      · exact hv (occursIn_mono g1 hKinf)
      · have := occursIn_singleton g2 hq0
        apply hqh
        rw [this]
        rfl
      · obtain ⟨r1', hr1eq, _⟩ := suffix_append_singleton hrsuf hr1ne
        apply hcbq
        rw [hrs, hr1eq]
        simp
    · exact hv (occursIn_mono h2 hAinf)
    · obtain ⟨p1', hp1eq, hp1'suf⟩ := suffix_append_singleton hsuf hp1ne
      by_cases hp1' : p1' = []
      · apply hqh
        rw [hps, hp1eq, hp1']
        rfl
      · obtain ⟨p1'', hp1''eq, _⟩ := suffix_append_singleton hp1'suf hp1'
        apply hcbq
        rw [hps, hp1eq, hp1''eq]
        simp

/-! ## Lowercasing commutes with the action-pass pieces -/

lemma lowerChar_isWS (c : Char) : isWS (lowerChar c) = isWS c := by
  by_cases h : isUpperAZ c = true
  · have hb := isUpperAZ_toNat h
    have ht := lowerChar_toNat h
    have h1 := (letter_not_special (e := lowerChar c) (by omega)).1
    have h2 := (letter_not_special (e := c) (by omega)).1
    rw [h1, h2]
  · rw [lowerChar_eq_self (by simpa using h)]

lemma lowerChar_isClauseBoundary (c : Char) :
    isClauseBoundary (lowerChar c) = isClauseBoundary c := by
  by_cases h : isUpperAZ c = true
  · have hb := isUpperAZ_toNat h
    have ht := lowerChar_toNat h
    have h1 := (letter_not_special (e := lowerChar c) (by omega)).2.2.1
    have h2 := (letter_not_special (e := c) (by omega)).2.2.1
    rw [h1, h2]
  · rw [lowerChar_eq_self (by simpa using h)]

lemma lowerStr_append (a b : Str) :
    lowerStr (a ++ b) = lowerStr a ++ lowerStr b := List.map_append _ _ _

lemma lowerStr_take (s : Str) (n : Nat) :
    lowerStr (s.take n) = (lowerStr s).take n := by
  unfold lowerStr
  rw [List.map_take]

lemma lowerStr_drop (s : Str) (n : Nat) :
    lowerStr (s.drop n) = (lowerStr s).drop n := by
  unfold lowerStr
  rw [List.map_drop]

lemma lowerStr_reverse (s : Str) :
    lowerStr s.reverse = (lowerStr s).reverse := by
  unfold lowerStr
  rw [List.map_reverse]

lemma lowerStr_lstrip (s : Str) :
    lowerStr (lstrip s) = lstrip (lowerStr s) := by
  unfold lstrip lowerStr
  rw [List.dropWhile_map]
  have h2 : (fun c => isWS (lowerChar c)) = isWS := funext lowerChar_isWS
  rw [show (isWS ∘ lowerChar) = isWS from funext (fun c => lowerChar_isWS c)]

lemma lowerStr_rstrip (s : Str) :
    lowerStr (rstrip s) = rstrip (lowerStr s) := by
  unfold rstrip
  have h1 : lowerStr ((s.reverse.dropWhile isWS).reverse) =
      (lowerStr (s.reverse.dropWhile isWS)).reverse := lowerStr_reverse _
  have h2 : lowerStr (s.reverse.dropWhile isWS) =
      (lowerStr s.reverse).dropWhile isWS := lowerStr_lstrip s.reverse
  rw [h1, h2, lowerStr_reverse]

lemma findIdx?_map {α β : Type} (f : α → β) (p : β → Bool) :
    ∀ l : List α, (l.map f).findIdx? p = l.findIdx? (fun x => p (f x))
  | [] => rfl
  | x :: xs => by
    simp only [List.map_cons, List.findIdx?_cons]
    split
    · rfl
    · rw [List.findIdx?_succ, List.findIdx?_succ, findIdx?_map f p xs]

lemma lastBoundaryIdx_lowerStr (t : Str) :
    lastBoundaryIdx (lowerStr t) = lastBoundaryIdx t := by
  unfold lastBoundaryIdx
  have h1 : (lowerStr t).reverse = (t.reverse).map lowerChar := by
    unfold lowerStr
    rw [List.map_reverse]
  rw [h1, findIdx?_map]
  have h2 : (fun x => isClauseBoundary (lowerChar x)) =
      (fun c => isClauseBoundary c) := by
    funext c
    exact lowerChar_isClauseBoundary c
  rw [h2]
  have h3 : (lowerStr t).length = t.length := List.length_map _ _
  cases t.reverse.findIdx? (fun c => isClauseBoundary c) with
  | none => rfl
  | some j => rw [h3]

lemma lowerStr_delete_last_clause (y : Str) :
    lowerStr (delete_last_clause y) = delete_last_clause (lowerStr y) := by
  unfold delete_last_clause
  dsimp only
  rw [← lowerStr_rstrip]
  by_cases hemp : rstrip y = []
  · rw [hemp]
    simp [lowerStr]
  · have hemp' : lowerStr (rstrip y) ≠ [] := by
      intro h
      exact hemp (List.map_eq_nil_iff.mp h)
    rw [if_neg hemp, if_neg hemp']
    rw [lastBoundaryIdx_lowerStr (rstrip y)]
    cases lastBoundaryIdx (rstrip y) with
    | none => simp [lowerStr]
    | some i =>
      rw [lowerStr_append, lowerStr_take]
      rfl

lemma actionDeleteStep_lower {p text r : Str}
    (h : actionDeleteStep p text = some r) :
    ∃ s₀ e₀, lowerStr r =
      delete_last_clause (rstrip ((lowerStr text).take s₀)) ++
        lstrip ((lowerStr text).drop e₀) := by
  unfold actionDeleteStep at h
  cases hf : findCI p text with
  | none => rw [hf] at h; cases h
  | some s =>
    rw [hf] at h
    dsimp only at h
    cases h
    refine ⟨s, s + p.length, ?_⟩
    rw [lowerStr_append, lowerStr_delete_last_clause, lowerStr_rstrip,
      lowerStr_take, lowerStr_lstrip, lowerStr_drop]

lemma actionDeleteStep_preserves {q p text r : Str}
    (hq0 : lowerStr q ≠ []) (hqh : (lowerStr q).head? ≠ some ' ')
    (hqb : ∀ c ∈ lowerStr q, isClauseBoundary c = false)
    (hno : containsCI q text = false)
    (h : actionDeleteStep p text = some r) :
    containsCI q r = false := by
  rw [containsCI_false_iff] at hno ⊢
  obtain ⟨s₀, e₀, hr⟩ := actionDeleteStep_lower h
  rw [hr]
  exact step_preserves_not_occursIn s₀ e₀ hq0 hqh hqb hno

lemma actionLoopGo_preserves {q : Str}
    (hq0 : lowerStr q ≠ []) (hqh : (lowerStr q).head? ≠ some ' ')
    (hqb : ∀ c ∈ lowerStr q, isClauseBoundary c = false) :
    ∀ (fuel : Nat) (p t : Str), containsCI q t = false →
      containsCI q (actionLoopGo p fuel t) = false := by
  intro fuel
  induction fuel with
  | zero => intro p t h; exact h
  | succ n ih =>
    intro p t h
    simp only [actionLoopGo]
    cases hstep : actionDeleteStep p t with
    | none => exact h
    | some r =>
      exact ih p r (actionDeleteStep_preserves hq0 hqh hqb h hstep)

lemma actionDeleteStep_none_iff {p t : Str} :
    actionDeleteStep p t = none ↔ findCI p t = none := by
  unfold actionDeleteStep
  cases findCI p t with
  | none => simp
  | some s => simp

lemma actionLoopGo_complete {p : Str} (hp : 2 ≤ p.length) :
    ∀ (fuel : Nat) (t : Str), t.length < fuel →
      containsCI p (actionLoopGo p fuel t) = false := by
  intro fuel
  induction fuel with
  | zero => intro t h; omega
  | succ n ih =>
    intro t h
    simp only [actionLoopGo]
    cases hstep : actionDeleteStep p t with
    | none =>
      rw [containsCI, actionDeleteStep_none_iff.mp hstep]
      rfl
    | some r =>
      have := actionDeleteStep_length hp hstep
      exact ih r (by omega)

lemma actionLoop_complete {p : Str} (hp : 2 ≤ p.length) (t : Str) :
    containsCI p (actionLoop p t) = false :=
  actionLoopGo_complete hp (t.length + 1) t (by omega)

lemma actionLoop_preserves {q : Str}
    (hq0 : lowerStr q ≠ []) (hqh : (lowerStr q).head? ≠ some ' ')
    (hqb : ∀ c ∈ lowerStr q, isClauseBoundary c = false)
    (p t : Str) (h : containsCI q t = false) :
    containsCI q (actionLoop p t) = false :=
  actionLoopGo_preserves hq0 hqh hqb (t.length + 1) p t h

lemma length_takeWhile_not_of_findIdx?_some {α : Type} {p : α → Bool} :
    ∀ {l : List α} {j : Nat}, l.findIdx? p = some j →
      (l.takeWhile (fun c => !p c)).length = j := by
  intro l
  induction l with
  | nil => intro j h; cases h
  | cons x xs ih =>
    intro j h
    rw [List.findIdx?_cons] at h
    by_cases hx : p x = true
    · rw [if_pos hx] at h
      cases h
      simp [List.takeWhile_cons, hx]
    · have hx' : p x = false := by simpa using hx
      rw [if_neg (by simp [hx'])] at h
      rw [List.findIdx?_succ] at h
      cases hrec : xs.findIdx? p with
      | none => rw [hrec] at h; cases h
      | some j' =>
        rw [hrec] at h
        cases h
        simp [List.takeWhile_cons, hx', ih hrec]

lemma length_takeWhile_not_of_findIdx?_none {α : Type} {p : α → Bool}
    {l : List α} (h : l.findIdx? p = none) :
    (l.takeWhile (fun c => !p c)).length = l.length := by
  have hall := List.findIdx?_eq_none_iff.mp h
  have : l.takeWhile (fun c => !p c) = l := by
    apply List.takeWhile_eq_self_iff.mpr
    intro x hx
    simp [hall x hx]
  rw [this]

lemma findIdx?_some_lt {α : Type} {p : α → Bool} {l : List α} {j : Nat}
    (h : l.findIdx? p = some j) : j < l.length :=
  (List.findIdx?_eq_some_iff_findIdx_eq.mp h).1

lemma amendedClause_eq (pre : Str) :
    amendedClause pre = delete_last_clause pre := by
  unfold amendedClause delete_last_clause lastBoundaryIdx
  dsimp only
  by_cases hemp : rstrip pre = []
  · rw [hemp]
    simp
  · rw [if_neg hemp]
    cases hf : (rstrip pre).reverse.findIdx?
        (fun c => isClauseBoundary c) with
    | none =>
      have hlen := length_takeWhile_not_of_findIdx?_none hf
      rw [List.length_reverse] at hlen
      rw [if_pos]
      simp only [List.length_reverse, hlen]
      simp
    | some j =>
      have hlen := length_takeWhile_not_of_findIdx?_some hf
      have hjlt : j < (rstrip pre).length := by
        have := findIdx?_some_lt hf
        rwa [List.length_reverse] at this
      have hlen2 :
          (((rstrip pre).reverse.takeWhile
            (fun c => !isClauseBoundary c)).reverse).length = j := by
        rw [List.length_reverse]
        exact hlen
      rw [hlen2]
      have hne : (rstrip pre).take ((rstrip pre).length - j) ≠ [] := by
        intro h0
        have := congrArg List.length h0
        simp only [List.length_take, List.length_nil] at this
        have h1 : 1 ≤ (rstrip pre).length := by
          cases hrp : rstrip pre with
          | nil => exact absurd hrp hemp
          | cons a b => simp [hrp]
        omega
      rw [if_neg hne]
      have harith : (rstrip pre).length - 1 - j + 1 =
          (rstrip pre).length - j := by omega
      dsimp only
      rw [harith]

lemma rstrip_idem (s : Str) : rstrip (rstrip s) = rstrip s := by
  unfold rstrip
  rw [List.reverse_reverse, List.dropWhile_idempotent]

lemma delete_last_clause_rstrip (x : Str) :
    delete_last_clause (rstrip x) = delete_last_clause x := by
  unfold delete_last_clause
  rw [rstrip_idem]

lemma amendedActionStep_eq (p text : Str) :
    amendedActionStep p text = actionDeleteStep p text := by
  unfold amendedActionStep actionDeleteStep
  cases findCI p text with
  | none => rfl
  | some s =>
    simp only [Option.map_some']
    rw [amendedClause_eq, delete_last_clause_rstrip]

lemma amendedActionGo_eq (p : Str) :
    ∀ (fuel : Nat) (t : Str), amendedActionGo p fuel t = actionLoopGo p fuel t := by
  intro fuel
  induction fuel with
  | zero => intro t; rfl
  | succ n ih =>
    intro t
    simp only [amendedActionGo, actionLoopGo, amendedActionStep_eq]
    cases actionDeleteStep p t with
    | none => rfl
    | some r => exact ih r

lemma amendedActionPass_eq (t : Str) :
    amendedActionPass t = actionPass t := by
  unfold amendedActionPass actionPass actionLoop
  simp only [List.foldl_cons, List.foldl_nil, amendedActionGo_eq]

/-- Claim C9: the action-command rewrite loop terminates on every input —
each successful iteration strictly shortens the text because at least the
matched phrase is removed — and the completed action pass leaves a text
in which no action phrase occurs (case-insensitively). -/
theorem C9_action_pass_termination :
    (∀ p ∈ actionPhrases, ∀ t r : Str,
      actionDeleteStep p t = some r → r.length < t.length) ∧
    (∀ p ∈ actionPhrases, ∀ t : Str,
      containsCI p (actionPass t) = false) := by
  constructor
  · intro p hp t r h
    have h2 : 2 ≤ p.length := by
      simp only [actionPhrases, List.mem_cons, List.not_mem_nil,
        or_false] at hp
      rcases hp with rfl | rfl | rfl <;> decide
    exact actionDeleteStep_length h2 h
  · intro p hp t
    have hd : actionPass t = actionLoop (str "undo that")
        (actionLoop (str "scratch that")
          (actionLoop (str "delete that") t)) := rfl
    rw [hd]
    simp only [actionPhrases, List.mem_cons, List.not_mem_nil,
      or_false] at hp
    rcases hp with rfl | rfl | rfl
    · apply actionLoop_preserves (by decide) (by decide) (by decide)
      apply actionLoop_preserves (by decide) (by decide) (by decide)
      exact actionLoop_complete (by decide) t
    · apply actionLoop_preserves (by decide) (by decide) (by decide)
      exact actionLoop_complete (by decide) _
    · exact actionLoop_complete (by decide) _

/-- Witness for C9: one concrete deletion step strictly shortens the
text, and the action pass leaves no phrase. -/
theorem C9_action_pass_termination_witness :
    actionDeleteStep (str "delete that") (str "x delete that y") =
      some (str "y") ∧
    (str "y").length < (str "x delete that y").length ∧
    containsCI (str "delete that")
      (actionPass (str "x delete that y")) = false :=
  ⟨by decide,
   C9_action_pass_termination.1 (str "delete that") (by decide)
     (str "x delete that y") (str "y") (by decide),
   C9_action_pass_termination.2 (str "delete that") (by decide)
     (str "x delete that y")⟩

/-! ## Claim C1: the action pass against its described clause rule -/

/-- Claim C1 counterexample: on `"a\ndelete that b"` the claim's clause
rule keeps `"a"` (the newline just before the phrase is the previous
sentence terminal, so the clause to delete is empty), but the code
strips the trailing whitespace — including that newline — before looking
for the boundary, deletes `"a"` as well, and returns `"b"`. -/
theorem C1_counterexample :
    actionPass (str "a\ndelete that b") = str "b" ∧
    claimActionPass (str "a\ndelete that b") = str "a\n b" ∧
    str "b" ≠ str "a\n b" :=
  ⟨by decide, by decide, by decide⟩

/-- Amended C1: the action pass processes the phrases one at a time in
the order "delete that", "scratch that", "undo that", each repeatedly at
its earliest case-insensitive occurrence; a deletion removes the phrase
together with the preceding clause computed after discarding whitespace
(including newlines) just before the phrase — the clause reaches back to
the last boundary character of the stripped prefix, which is kept and
followed by one space, or to the start of the text when none exists —
and whitespace after the phrase is discarded.  The claim's example still
holds: `"a delete that b delete that c"` reduces to `"c"`. -/
theorem C1_action_pass_amended :
    (∀ t : Str, actionPass t = amendedActionPass t) ∧
    apply_voice_commands (str "a delete that b delete that c") [] =
      str "c" :=
  ⟨fun t => (amendedActionPass_eq t).symm, by decide⟩

/-- Claim C2 counterexample: an opening quote at the start of the text
falls through the bracket-open branch (guarded by `m.start() > 0`) into
the bracket-close branch, so it is emitted with a trailing space, not
bare as the claim's bracket-open rule demands — and the space survives
normalization: `"open quote hello"` becomes `"\" hello"`. -/
theorem C2_counterexample :
    replaceMatch builtinCommands (str "open quote") true = str "\" " ∧
    claimEmit (str "open quote") (str "\"") true = str "\"" ∧
    apply_voice_commands (str "open quote hello") [] = str "\" hello" ∧
    str "\" " ≠ str "\"" :=
  ⟨by decide, by decide, by decide, by decide⟩

/-- Amended C2: every matched phrase is emitted by replacement class —
attach-left punctuation as replacement plus one trailing space;
whitespace controls verbatim; `(` or a quote not at the text start with
one leading space and no trailing space; `)`, and also `(` or a quote at
the text start falling to the closing/default handling, per
`amendedClassify`; everything else space-separated — and the claim's
example still holds: `"hello comma world period"` with Auto-Capitalize
yields `"Hello, world."`. -/
theorem C2_literal_emission :
    (∀ (commands : List (Str × Str)) (key : Str) (atStart : Bool),
      replaceMatch commands key atStart =
        amendedEmit (dictGet commands key key) atStart) ∧
    autoCapitalize
      (apply_voice_commands (str "hello comma world period") []) =
      str "Hello, world." := by
  constructor
  · intro commands key atStart
    unfold replaceMatch amendedEmit amendedClassify
    dsimp only
    split_ifs <;> rfl
  · decide
